import Mathlib

/-!
# Graph-based image segmentation (`segment.cpp`)

A shallow embedding of `segment_image`, of the helpers it calls, and of the
OpenCV wrapper `segment` and the drawing routine `draw_segment`.

Conventions of the embedding:

* C `int` values that are sizes, coordinates or node ids are `Nat`; the
  values the program subtracts from or compares with caller-supplied signed
  values (`num`, `min_size`, the labels) are `Int`.  Arithmetic is unbounded,
  which agrees with the program as long as `width*height*4` fits an `int`;
  the capacity of the edge array is also given as the program computes it in
  32-bit `int` (`edge_capacity`).
* `float` samples, weights and the constant `c` are exact rationals; the
  library function `sqrt` and the smoothing filter `smooth` are parameters.
  The graph building code is also given over a general number type, to read
  the samples as real numbers.
* arrays are lists read with `getD` and written with `set`.
-/

namespace Segment

/-! ## Data model -/

/-- Modelled from the spec: a 3-channel 8-bit colour triple (`rgb` of
`segment/misc.h`, which is not part of the sources). -/
structure rgb where
  r : Nat
  g : Nat
  b : Nat
deriving DecidableEq, Repr

/-- Modelled from the spec: the dense buffer abstraction (`segment/image.h`
is not part of the sources): a width, a height, and get of a sample at
`(x, y)`. -/
structure image (T : Type) where
  width : Nat
  height : Nat
  access : Nat → Nat → T

/-- The accessor `imRef(im, x, y)`. -/
def imRef {T : Type} (im : image T) (x y : Nat) : T := im.access x y

/-- Modelled from the spec: an edge `{a, b, w}` (`segment/segment-graph.h`
is not part of the sources). -/
structure edge where
  w : ℚ
  a : Nat
  b : Nat
deriving DecidableEq, Repr

/-- Modelled from the spec: the disjoint-set forest ("Universe", class universe) of
`segment/disjoint-set.h`, which is not part of the sources: parallel arrays
indexed by node id holding parent, rank and size, and the live count of
components. -/
structure Universe where
  p : List Nat
  rank : List Nat
  sizes : List Nat
  num : Int
deriving DecidableEq, Repr

/-- Modelled from the spec: a Universe over `elements` singletons, each of
size 1 and rank 0. -/
def Universe.create (elements : Nat) : Universe :=
  { p := List.range elements
    rank := List.replicate elements 0
    sizes := List.replicate elements 1
    num := (elements : Int) }

/-- Modelled from the spec: the upward walk of `find`: follow parents until a
node is its own parent; `fuel` bounds the number of steps. -/
def findAux (p : List Nat) : Nat → Nat → Nat
  | 0, x => x
  | fuel + 1, x => if p.getD x x = x then x else findAux p fuel (p.getD x x)

/-- Modelled from the spec: `find(x)` returns the representative root of the
component of `x`, by a pure upward walk. -/
def Universe.find (u : Universe) (x : Nat) : Nat := findAux u.p u.p.length x

/-- Modelled from the spec: `size(root)`, the stored pixel count of a root. -/
def Universe.size (u : Universe) (x : Nat) : Nat := u.sizes.getD x 0

/-- Modelled from the spec: `num_sets()`, the live component count. -/
def Universe.num_sets (u : Universe) : Int := u.num

/-- Modelled from the spec: `join(a, b)` with union by rank: the lower-rank
root is attached under the higher-rank root, on a tie the first is attached
under the second whose rank increments; the surviving root's size becomes the
sum; the component count is decremented by one. -/
def Universe.join (u : Universe) (x y : Nat) : Universe :=
  if u.rank.getD x 0 > u.rank.getD y 0 then
    { p := u.p.set y x
      rank := u.rank
      sizes := u.sizes.set x (u.sizes.getD x 0 + u.sizes.getD y 0)
      num := u.num - 1 }
  else
    { p := u.p.set x y
      rank := if u.rank.getD x 0 = u.rank.getD y 0
              then u.rank.set y (u.rank.getD y 0 + 1) else u.rank
      sizes := u.sizes.set y (u.sizes.getD y 0 + u.sizes.getD x 0)
      num := u.num - 1 }

/-! ## Adaptive segmentation procedure -/

/-- Modelled from the spec: the adaptive threshold of a root,
`internal_difference + c / size`. -/
def threshold (u : Universe) (idiff : List ℚ) (c : ℚ) (r : Nat) : ℚ :=
  idiff.getD r 0 + c / (u.size r : ℚ)

/-- Modelled from the spec: one iteration of the merge loop of
`segment_graph` on the edge `e`: resolve both roots, skip if equal, merge when
`w <= min(threshold(ra), threshold(rb))` and record `w` as the internal
difference of the surviving root. -/
def segment_graph_step (c : ℚ) (st : Universe × List ℚ) (e : edge) :
    Universe × List ℚ :=
  let a := st.1.find e.a
  let b := st.1.find e.b
  if a ≠ b then
    if e.w ≤ min (threshold st.1 st.2 c a) (threshold st.1 st.2 c b) then
      let u := st.1.join a b
      (u, st.2.set (u.find a) e.w)
    else st
  else st

/-- Modelled from the spec: the sort of the edge list by non-decreasing
weight, ties keeping the order of generation. -/
def sort_edges (edges : List edge) : List edge :=
  edges.insertionSort (fun e1 e2 => e1.w ≤ e2.w)

/-- Modelled from the spec: `segment_graph(num_vertices, num_edges, edges, c)`
(`segment/segment-graph.h` is not part of the sources).  It reorders the
caller's edge array, so the sorted list is returned with the Universe. -/
def segment_graph (num_vertices : Nat) (edges : List edge) (c : ℚ) :
    Universe × List edge :=
  let sorted := sort_edges edges
  let init : Universe × List ℚ :=
    (Universe.create num_vertices, List.replicate num_vertices 0)
  ((sorted.foldl (segment_graph_step c) init).1, sorted)

/-! ## `segment.cpp` -/

/-- Modelled from the spec: the helper `square` of `segment/misc.h` (not part
of the sources), the square of a channel difference in the Euclidean
distance. -/
def square (x : ℚ) : ℚ := x * x

/-- The dissimilarity measure `diff` between the pixels `(x1,y1)` and
`(x2,y2)`. -/
def diff (sqrt : ℚ → ℚ) (r g b : image ℚ) (x1 y1 x2 y2 : Nat) : ℚ :=
  sqrt (square (imRef r x1 y1 - imRef r x2 y2) +
        square (imRef g x1 y1 - imRef g x2 y2) +
        square (imRef b x1 y1 - imRef b x2 y2))

/-- The edges appended for the pixel `(x, y)` by the body of the graph
building loop, in the order of the four `if` statements. -/
def pixel_edges (sqrt : ℚ → ℚ) (r g b : image ℚ) (width height x y : Nat) :
    List edge :=
  (if x < width - 1 then
    [{ a := y * width + x, b := y * width + (x + 1)
       w := diff sqrt r g b x y (x + 1) y }] else []) ++
  (if y < height - 1 then
    [{ a := y * width + x, b := (y + 1) * width + x
       w := diff sqrt r g b x y x (y + 1) }] else []) ++
  (if x < width - 1 ∧ y < height - 1 then
    [{ a := y * width + x, b := (y + 1) * width + (x + 1)
       w := diff sqrt r g b x y (x + 1) (y + 1) }] else []) ++
  (if x < width - 1 ∧ y > 0 then
    [{ a := y * width + x, b := (y - 1) * width + (x + 1)
       w := diff sqrt r g b x y (x + 1) (y - 1) }] else [])

/-- The graph building loops: `edges[0 .. num)` after the two nested loops. -/
def build_graph (sqrt : ℚ → ℚ) (r g b : image ℚ) (width height : Nat) :
    List edge :=
  (List.range height).flatMap fun y =>
    (List.range width).flatMap fun x => pixel_edges sqrt r g b width height x y

/-- One iteration of the loop that post-processes small components. -/
def postprocess_step (min_size : Int) (u : Universe) (e : edge) : Universe :=
  let a := u.find e.a
  let b := u.find e.b
  if a ≠ b ∧ ((u.size a : Int) < min_size ∨ (u.size b : Int) < min_size)
  then u.join a b else u

/-- The loop that post-processes small components. -/
def postprocess (min_size : Int) (u : Universe) (edges : List edge) : Universe :=
  edges.foldl (postprocess_step min_size) u

/-- The state of the labelling loops: the table `colors`, the counter
`curr_idx` and the output buffer (row-major). -/
structure label_state where
  colors : List Int
  curr_idx : Int
  output : List Int
deriving DecidableEq, Repr

/-- The body of the labelling loops at the pixel `(x, y)`. -/
def label_step (u : Universe) (width : Nat) (st : label_state) (x y : Nat) :
    label_state :=
  let comp := u.find (y * width + x)
  let st1 : label_state :=
    if st.colors.getD comp 0 = 0 then
      { st with colors := st.colors.set comp st.curr_idx
                curr_idx := st.curr_idx + 1 }
    else st
  { st1 with output := st1.output.set (y * width + x) (st1.colors.getD comp 0) }

/-- The labelling loops ("set comp index"). -/
def label_loop (u : Universe) (width height : Nat) : label_state :=
  (List.range height).foldl
    (fun st y => (List.range width).foldl (fun st x => label_step u width st x y) st)
    { colors := List.replicate (width * height) 0
      curr_idx := 1
      output := List.replicate (width * height) 0 }

/-- The channel images `r`, `g`, `b` filled from the input image. -/
def channel (f : rgb → Nat) (im : image rgb) : image ℚ :=
  { width := im.width, height := im.height
    access := fun x y => ((f (imRef im x y) : Nat) : ℚ) }

/-- The Universe after `segment_graph` and the post-processing loop. -/
def final_universe (sqrt : ℚ → ℚ) (smooth : image ℚ → ℚ → image ℚ)
    (im : image rgb) (sigma c : ℚ) (min_size : Int) : Universe :=
  let width := im.width
  let height := im.height
  let smooth_r := smooth (channel rgb.r im) sigma
  let smooth_g := smooth (channel rgb.g im) sigma
  let smooth_b := smooth (channel rgb.b im) sigma
  let edges := build_graph sqrt smooth_r smooth_g smooth_b width height
  let ue := segment_graph (width * height) edges c
  postprocess min_size ue.1 ue.2

/-- The function `segment_image`: the label buffer (row-major) and the value
stored in `*num_ccs`. -/
def segment_image (sqrt : ℚ → ℚ) (smooth : image ℚ → ℚ → image ℚ)
    (im : image rgb) (sigma c : ℚ) (min_size : Int) : List Int × Int :=
  let u := final_universe sqrt smooth im sigma c min_size
  ((label_loop u im.width im.height).output, u.num_sets)

/-- The edge list `edges[0 .. num)` that `segment_image` builds for an image. -/
def image_graph (sqrt : ℚ → ℚ) (smooth : image ℚ → ℚ → image ℚ)
    (im : image rgb) (sigma : ℚ) : List edge :=
  build_graph sqrt (smooth (channel rgb.r im) sigma) (smooth (channel rgb.g im) sigma)
    (smooth (channel rgb.b im) sigma) im.width im.height

/-- The universe returned by `segment_graph` inside `segment_image`, before
the post-processing loop. -/
def graph_universe (sqrt : ℚ → ℚ) (smooth : image ℚ → ℚ → image ℚ)
    (im : image rgb) (sigma c : ℚ) : Universe :=
  (segment_graph (im.width * im.height) (image_graph sqrt smooth im sigma) c).1

/-- The pixels `(x, y)` and `(x', y')` are distinct and 8-adjacent. -/
def adjacent8 (x y x' y' : Nat) : Prop :=
  (x ≠ x' ∨ y ≠ y') ∧ x ≤ x' + 1 ∧ x' ≤ x + 1 ∧ y ≤ y' + 1 ∧ y' ≤ y + 1

/-- The edge `e` has the node ids `p` and `q` as its two endpoints. -/
def joins (e : edge) (p q : Nat) : Prop :=
  (e.a = p ∧ e.b = q) ∨ (e.a = q ∧ e.b = p)

/-- The ordered pair of endpoints of an edge. -/
def edge_key (e : edge) : Nat × Nat := (e.a, e.b)

/-! ## The edge buffer and the weights over a general number type -/

/-- The value an `int` expression takes when its exact value is `n`: the
two's complement wrap to 32 bits. -/
def int32 (n : Int) : Int := (n + 2147483648) % 4294967296 - 2147483648

/-- The capacity `width*height*4` of the array `edges`, computed in `int`. -/
def edge_capacity (width height : Nat) : Int :=
  int32 (int32 ((width : Int) * (height : Int)) * 4)

/-- A pixel of a `CV_8UC3` matrix: the three bytes `val[0]`, `val[1]`,
`val[2]` of a `cv::Vec3b`. -/
structure Vec3b where
  val0 : Nat
  val1 : Nat
  val2 : Nat
deriving DecidableEq, Repr

/-- A `cv::Mat`: `rows`, `cols` and the row-major element buffer. -/
structure Mat (T : Type) where
  rows : Nat
  cols : Nat
  data : List T

/-- The accessor `m.at<T>(y, x)`; `d` stands for a read outside the buffer. -/
def Mat.at_ {T : Type} (m : Mat T) (d : T) (y x : Nat) : T :=
  m.data.getD (y * m.cols + x) d

/-- The image `input_rgb` that `segment` fills from its input matrix: the
channels of a `Vec3b` are stored blue, green, red. -/
def input_rgb (input : Mat Vec3b) : image rgb :=
  { width := input.cols
    height := input.rows
    access := fun x y =>
      { b := (input.at_ ⟨0, 0, 0⟩ y x).val0
        g := (input.at_ ⟨0, 0, 0⟩ y x).val1
        r := (input.at_ ⟨0, 0, 0⟩ y x).val2 } }

/-- The function `segment`: the output matrix (`CV_32SC1`) and the returned
`num_ccs`. -/
def segment (sqrt : ℚ → ℚ) (smooth : image ℚ → ℚ → image ℚ)
    (input : Mat Vec3b) (sigma c : ℚ) (min_size : Int) : Mat Int × Int :=
  let height := input.rows
  let width := input.cols
  let res := segment_image sqrt smooth (input_rgb input) sigma c min_size
  let data := (List.range height).foldl
    (fun out y => (List.range width).foldl
      (fun out x => out.set (y * width + x) (res.1.getD (y * width + x) 0 - 1)) out)
    (List.replicate (height * width) 0)
  ({ rows := height, cols := width, data := data }, res.2)

/-- The table lookup `colors[k]` of `draw_segment` with an `int` index:
`none` stands for an index outside the table. -/
def lookup_color (colors : List rgb) (k : Int) : Option rgb :=
  if 0 ≤ k then colors[k.toNat]? else none

/-- The function `draw_segment`, with the colours `random_rgb()` returns given
by `rnd`: the pixels written to the output in raster order, `none` where the
lookup in the table of `width * height` colours is out of bounds. -/
def draw_segment (rnd : Nat → rgb) (input_comp : Mat Int) : List (Option Vec3b) :=
  let height := input_comp.rows
  let width := input_comp.cols
  let colors := (List.range (width * height)).map rnd
  (List.range height).flatMap fun y =>
    (List.range width).map fun x =>
      (lookup_color colors (input_comp.at_ 0 y x)).map
        fun c => { val0 := c.b, val1 := c.g, val2 := c.r }

/-- The calls `u->join(a, b)` made by the post-processing loop, in order, each
with the universe it is made on. -/
def postprocess_calls (min_size : Int) : Universe → List edge → List (Universe × Nat × Nat)
  | _, [] => []
  | u, e :: es =>
    if u.find e.a ≠ u.find e.b ∧
        ((u.size (u.find e.a) : Int) < min_size ∨ (u.size (u.find e.b) : Int) < min_size)
    then (u, u.find e.a, u.find e.b) ::
      postprocess_calls min_size (u.join (u.find e.a) (u.find e.b)) es
    else postprocess_calls min_size u es

/-! ## Sample inputs -/

/-- A square root on the rationals that is exact on squares. -/
def sample_sqrt (q : ℚ) : ℚ := Rat.sqrt q

/-- A smoothing filter that returns its input. -/
def no_smooth (i : image ℚ) (_ : ℚ) : image ℚ := i

/-- The `w` by `h` image whose red samples are the entries of `l` in raster
order and whose green and blue samples are 0. -/
def red_image (w h : Nat) (l : List Nat) : image rgb :=
  { width := w, height := h, access := fun x y => { r := l.getD (y * w + x) 0, g := 0, b := 0 } }

/-- The `w` by `h` image all of whose pixels have the colour `col`. -/
def flat_image (w h : Nat) (col : rgb) : image rgb :=
  { width := w, height := h, access := fun _ _ => col }

/-! ## Predicates used to state the properties -/

/-- The node `i` is its own parent. -/
def is_root (u : Universe) (i : Nat) : Prop := u.p.getD i i = i

/-- The number of indices below `n` that satisfy `P`. -/
def count_below (n : Nat) (P : Nat → Prop) [DecidablePred P] : Nat :=
  (List.range n).countP (fun i => decide (P i))

/-- Well-formedness of the parent and rank arrays of a universe over `n`
elements: parents stay in range, ranks strictly increase along parent links,
`rank + num` never exceeds `n`, and `num` counts the roots. -/
structure Forest (u : Universe) (n : Nat) : Prop where
  len_p : u.p.length = n
  len_rank : u.rank.length = n
  len_size : u.sizes.length = n
  p_lt : ∀ i, i < n → u.p.getD i i < n
  rank_lt : ∀ i, i < n → u.p.getD i i ≠ i →
    u.rank.getD i 0 < u.rank.getD (u.p.getD i i) 0
  rank_le : ∀ i, i < n → (u.rank.getD i 0 : Int) + u.num ≤ n
  num_eq : u.num = (count_below n (fun i => u.p.getD i i = i) : Nat)

/-- Full well-formedness: a forest whose stored root sizes are the numbers of
nodes resolving to each root. -/
structure WF (u : Universe) (n : Nat) : Prop where
  forest : Forest u n
  size_eq : ∀ r, r < n → u.p.getD r r = r →
    u.sizes.getD r 0 = count_below n (fun i => u.find i = r)

/-- The universe `v` is `u` with the root `c` attached under the root `s`. -/
structure Attached (u v : Universe) (c s : Nat) : Prop where
  p_eq : v.p = u.p.set c s
  rank_eq : (v.rank = u.rank ∧ u.rank.getD c 0 < u.rank.getD s 0) ∨
    (v.rank = u.rank.set s (u.rank.getD s 0 + 1) ∧ u.rank.getD c 0 = u.rank.getD s 0)
  size_eq : v.sizes = u.sizes.set s (u.sizes.getD s 0 + u.sizes.getD c 0)
  num_eq : v.num = u.num - 1

/-- Two node ids are the endpoints of an edge of the list, in either order. -/
def adjacent (E : List edge) (x y : Nat) : Prop :=
  ∃ e ∈ E, (e.a = x ∧ e.b = y) ∨ (e.a = y ∧ e.b = x)

/-- The nodes `x` and `y` are joined by a path of edges of `E` every step of
which stays inside one component of `u`. -/
def linked (E : List edge) (u : Universe) (x y : Nat) : Prop :=
  Relation.ReflTransGen (fun s t => adjacent E s t ∧ u.find s = u.find t) x y

/-- The invariant of the two merge loops over a universe of `n` nodes and the
edge list `E`: the universe is well formed and every component is connected
by edges of `E` inside the component. -/
structure Inv (E : List edge) (n : Nat) (u : Universe) : Prop where
  wf : WF u n
  conn : ∀ i j, i < n → j < n → u.find i = u.find j → linked E u i j

/-- The universe `v` has every pair of nodes together that `u` has together. -/
def coarsens (n : Nat) (u v : Universe) : Prop :=
  ∀ i j, i < n → j < n → u.find i = u.find j → v.find i = v.find j

/-- One loop iteration on the edge `e`: nothing, or the join of the two
distinct roots of its endpoints. -/
def merge_step (u v : Universe) (e : edge) : Prop :=
  v = u ∨ (u.find e.a ≠ u.find e.b ∧ v = u.join (u.find e.a) (u.find e.b))

/-- The body of the labelling loops at the pixel with node id `i`. -/
def label_px (u : Universe) (st : label_state) (i : Nat) : label_state :=
  let comp := u.find i
  let st1 : label_state :=
    if st.colors.getD comp 0 = 0 then
      { st with colors := st.colors.set comp st.curr_idx
                curr_idx := st.curr_idx + 1 }
    else st
  { st1 with output := st1.output.set i (st1.colors.getD comp 0) }

/-- The state before the labelling loops. -/
def label_init (n : Nat) : label_state :=
  { colors := List.replicate n 0, curr_idx := 1, output := List.replicate n 0 }

/-- The invariant of the labelling loops after the first `m` pixels of a
universe over `n` nodes. -/
structure LInv (u : Universe) (n m : Nat) (st : label_state) : Prop where
  len_colors : st.colors.length = n
  len_output : st.output.length = n
  idx_pos : 1 ≤ st.curr_idx
  seen : ∀ r, r < n → (st.colors.getD r 0 ≠ 0 ↔ ∃ i, i < m ∧ u.find i = r)
  range : ∀ r, r < n → st.colors.getD r 0 ≠ 0 →
    1 ≤ st.colors.getD r 0 ∧ st.colors.getD r 0 < st.curr_idx
  inj : ∀ r r', r < n → r' < n → st.colors.getD r 0 ≠ 0 →
    st.colors.getD r 0 = st.colors.getD r' 0 → r = r'
  out : ∀ i, i < m → st.output.getD i 0 = st.colors.getD (u.find i) 0
  prev : ∀ i, i < m → 1 < st.output.getD i 0 →
    ∃ j, j < i ∧ st.output.getD j 0 = st.output.getD i 0 - 1
  onto : ∀ k, 1 ≤ k → k < st.curr_idx → ∃ i, i < m ∧ st.output.getD i 0 = k
  card : st.curr_idx = (count_below n (fun r => st.colors.getD r 0 ≠ 0) : Nat) + 1

/-! ## The two-block scenario -/

/-- The value `diff` computes for two pixels of the colours `A` and `B`: the
Euclidean distance of the two colour triples, through the given `sqrt`. -/
def colour_dist (sqrt : ℚ → ℚ) (A B : rgb) : ℚ :=
  sqrt (square ((A.r : ℚ) - (B.r : ℚ)) + square ((A.g : ℚ) - (B.g : ℚ)) +
        square ((A.b : ℚ) - (B.b : ℚ)))

/-- The edge list generated for a 4x2 image whose left two columns have one
colour and whose right two columns another, `d` being the weight across. -/
def two_block_edges (d : ℚ) : List edge :=
  [⟨0, 0, 1⟩, ⟨0, 0, 4⟩, ⟨0, 0, 5⟩, ⟨d, 1, 2⟩, ⟨0, 1, 5⟩, ⟨d, 1, 6⟩, ⟨0, 2, 3⟩,
   ⟨0, 2, 6⟩, ⟨0, 2, 7⟩, ⟨0, 3, 7⟩, ⟨0, 4, 5⟩, ⟨0, 4, 1⟩, ⟨d, 5, 6⟩, ⟨d, 5, 2⟩,
   ⟨0, 6, 7⟩, ⟨0, 6, 3⟩]

/-- The edges of weight 0 of `two_block_edges`, in order of generation. -/
def two_block_zero : List edge :=
  [⟨0, 0, 1⟩, ⟨0, 0, 4⟩, ⟨0, 0, 5⟩, ⟨0, 1, 5⟩, ⟨0, 2, 3⟩, ⟨0, 2, 6⟩, ⟨0, 2, 7⟩,
   ⟨0, 3, 7⟩, ⟨0, 4, 5⟩, ⟨0, 4, 1⟩, ⟨0, 6, 7⟩, ⟨0, 6, 3⟩]

/-- The edges between the two blocks, in order of generation. -/
def two_block_cross (d : ℚ) : List edge :=
  [⟨d, 1, 2⟩, ⟨d, 1, 6⟩, ⟨d, 5, 6⟩, ⟨d, 5, 2⟩]

/-- The universe in which the nodes of the left block resolve to 1 and those
of the right block to 3. -/
def two_block_universe : Universe :=
  { p := [1, 1, 3, 3, 1, 1, 3, 3], rank := [0, 1, 0, 1, 0, 0, 0, 0],
    sizes := [1, 4, 1, 4, 1, 1, 1, 1], num := 2 }

/-- The iteration of the adaptive loop with the threshold test taken as
passed. -/
def merge_always_step (st : Universe × List ℚ) (e : edge) : Universe × List ℚ :=
  let a := st.1.find e.a
  let b := st.1.find e.b
  if a ≠ b then
    let u := st.1.join a b
    (u, st.2.set (u.find a) e.w)
  else st

/-- The state of the adaptive loop after the two blocks were merged across an
edge of weight `d`. -/
def two_block_merged (d : ℚ) : Universe × List ℚ :=
  ({ p := [1, 3, 3, 3, 1, 1, 3, 3], rank := [0, 1, 0, 2, 0, 0, 0, 0],
     sizes := [1, 4, 1, 8, 1, 1, 1, 1], num := 1 }, [0, 0, 0, d, 0, 0, 0, 0])

/-- The 4x2 image whose left two columns have the colour `A` and whose right
two columns have the colour `B`. -/
def two_block_image (A B : rgb) : image rgb :=
  { width := 4, height := 2, access := fun x _ => if x < 2 then A else B }

/-! ## Lists -/

theorem getD_set_eq {α : Type} (l : List α) (i j : Nat) (v d : α) :
    (l.set i v).getD j d = if i = j ∧ i < l.length then v else l.getD j d := by
  simp only [List.getD_eq_getElem?_getD, List.getElem?_set]
  by_cases h : i = j
  · subst h
    by_cases h2 : i < l.length
    · simp [h2]
    · simp [h2, List.getElem?_eq_none (Nat.le_of_not_lt h2)]
  · simp [h]

theorem getD_set_self {α : Type} (l : List α) (i : Nat) (v d : α) (h : i < l.length) :
    (l.set i v).getD i d = v := by
  rw [getD_set_eq]; simp [h]

theorem getD_set_ne {α : Type} (l : List α) (i j : Nat) (v d : α) (h : i ≠ j) :
    (l.set i v).getD j d = l.getD j d := by
  rw [getD_set_eq]; simp [h]

theorem count_below_succ (n : Nat) (P : Nat → Prop) [DecidablePred P] :
    count_below (n + 1) P = count_below n P + (if P n then 1 else 0) := by
  unfold count_below
  rw [List.range_succ, List.countP_append]
  by_cases h : P n <;> simp [List.countP_cons, h]

theorem count_below_congr (n : Nat) (P Q : Nat → Prop) [DecidablePred P] [DecidablePred Q]
    (h : ∀ i, i < n → (P i ↔ Q i)) : count_below n P = count_below n Q := by
  induction n with
  | zero => rfl
  | succ m ih =>
    rw [count_below_succ, count_below_succ, ih (fun i hi => h i (Nat.lt_succ_of_lt hi))]
    have := h m (Nat.lt_succ_self m)
    by_cases hp : P m
    · simp [hp, this.mp hp]
    · have hq : ¬ Q m := fun hq => hp (this.mpr hq)
      simp [hp, hq]

theorem count_below_le (n : Nat) (P : Nat → Prop) [DecidablePred P] :
    count_below n P ≤ n := by
  induction n with
  | zero => simp [count_below]
  | succ m ih => rw [count_below_succ]; split <;> omega

/-- Removing one satisfying index lowers the count by one. -/
theorem count_below_remove (n x : Nat) (P Q : Nat → Prop) [DecidablePred P] [DecidablePred Q]
    (hx : x < n) (hP : P x) (hQ : ¬ Q x) (h : ∀ i, i < n → i ≠ x → (P i ↔ Q i)) :
    count_below n P = count_below n Q + 1 := by
  induction n with
  | zero => omega
  | succ m ih =>
    rw [count_below_succ, count_below_succ]
    by_cases hxm : x = m
    · subst hxm
      rw [count_below_congr x P Q (fun i hi => h i (Nat.lt_succ_of_lt hi) (by omega))]
      simp [hP, hQ]
    · have hxlt : x < m := by omega
      rw [ih hxlt (fun i hi hne => h i (Nat.lt_succ_of_lt hi) hne)]
      have := h m (Nat.lt_succ_self m) (fun e => hxm e.symm)
      by_cases hp : P m
      · simp [hp, this.mp hp]
      · have hq : ¬ Q m := fun hq => hp (this.mpr hq)
        simp [hp, hq]

/-- The count of a disjunction of exclusive predicates is the sum. -/
theorem count_below_or (n : Nat) (P Q : Nat → Prop) [DecidablePred P] [DecidablePred Q]
    (h : ∀ i, i < n → ¬ (P i ∧ Q i)) :
    count_below n (fun i => P i ∨ Q i) = count_below n P + count_below n Q := by
  induction n with
  | zero => rfl
  | succ m ih =>
    rw [count_below_succ, count_below_succ, count_below_succ,
      ih (fun i hi => h i (Nat.lt_succ_of_lt hi))]
    have := h m (Nat.lt_succ_self m)
    by_cases hp : P m <;> by_cases hq : Q m
    · exact absurd ⟨hp, hq⟩ this
    · simp [hp, hq]; omega
    · simp [hp, hq]; omega
    · simp [hp, hq]

theorem count_below_pos (n x : Nat) (P : Nat → Prop) [DecidablePred P]
    (hx : x < n) (hP : P x) : 0 < count_below n P := by
  induction n with
  | zero => omega
  | succ m ih =>
    rw [count_below_succ]
    by_cases hxm : x = m
    · subst hxm; simp [hP]
    · have := ih (by omega); omega

/-! ## The disjoint-set forest -/

theorem findAux_zero (p : List Nat) (x : Nat) : findAux p 0 x = x := rfl

theorem findAux_succ (p : List Nat) (f x : Nat) :
    findAux p (f + 1) x = if p.getD x x = x then x else findAux p f (p.getD x x) := rfl

theorem findAux_root (p : List Nat) (fuel x : Nat) (h : p.getD x x = x) :
    findAux p fuel x = x := by
  cases fuel with
  | zero => rfl
  | succ f => rw [findAux_succ, if_pos h]

/-- With ranks increasing along parent links and bounded by `K`, a walk with
fuel at least `K - rank` ends in a root. -/
theorem findAux_spec (p rank : List Nat) (n K : Nat)
    (hp : ∀ i, i < n → p.getD i i < n)
    (hr : ∀ i, i < n → p.getD i i ≠ i → rank.getD i 0 < rank.getD (p.getD i i) 0)
    (hK : ∀ i, i < n → rank.getD i 0 ≤ K) :
    ∀ fuel i, i < n → K ≤ rank.getD i 0 + fuel →
      findAux p fuel i < n ∧
        p.getD (findAux p fuel i) (findAux p fuel i) = findAux p fuel i := by
  intro fuel
  induction fuel with
  | zero =>
    intro i hi hf
    have hroot : p.getD i i = i := by
      by_contra hne
      have h1 := hr i hi hne
      have h2 := hK _ (hp i hi)
      omega
    rw [findAux_zero]
    exact ⟨hi, hroot⟩
  | succ f ih =>
    intro i hi hf
    by_cases hroot : p.getD i i = i
    · rw [findAux_succ, if_pos hroot]
      exact ⟨hi, hroot⟩
    · have h1 := hr i hi hroot
      rw [findAux_succ, if_neg hroot]
      exact ih (p.getD i i) (hp i hi) (by omega)

theorem Forest.num_nonneg {u : Universe} {n : Nat} (h : Forest u n) : 0 ≤ u.num := by
  rw [h.num_eq]; exact Int.natCast_nonneg _

theorem Forest.rank_bound {u : Universe} {n : Nat} (h : Forest u n) (i : Nat) (hi : i < n) :
    u.rank.getD i 0 ≤ n := by
  have h1 := h.rank_le i hi
  have h2 := h.num_nonneg
  omega

theorem Forest.find_spec {u : Universe} {n : Nat} (h : Forest u n) (i : Nat) (hi : i < n) :
    u.find i < n ∧ u.p.getD (u.find i) (u.find i) = u.find i := by
  unfold Universe.find
  rw [h.len_p]
  exact findAux_spec u.p u.rank n n h.p_lt h.rank_lt h.rank_bound n i hi (by omega)

theorem Forest.find_lt {u : Universe} {n : Nat} (h : Forest u n) (i : Nat) (hi : i < n) :
    u.find i < n := (h.find_spec i hi).1

theorem Forest.find_root {u : Universe} {n : Nat} (h : Forest u n) (i : Nat) (hi : i < n) :
    u.p.getD (u.find i) (u.find i) = u.find i := (h.find_spec i hi).2

theorem find_of_root (u : Universe) (r : Nat) (h : u.p.getD r r = r) : u.find r = r :=
  findAux_root u.p _ r h

theorem Forest.find_find {u : Universe} {n : Nat} (h : Forest u n) (i : Nat) (hi : i < n) :
    u.find (u.find i) = u.find i :=
  find_of_root u _ (h.find_root i hi)

theorem Attached.forest {u v : Universe} {n c s : Nat} (h : Forest u n)
    (hc : c < n) (hs : s < n) (hrc : u.p.getD c c = c) (hrs : u.p.getD s s = s)
    (hne : c ≠ s) (ha : Attached u v c s) : Forest v n := by
  have hp : ∀ i, v.p.getD i i = if c = i then s else u.p.getD i i := by
    intro i
    rw [ha.p_eq, getD_set_eq, h.len_p]
    by_cases hci : c = i
    · rw [if_pos ⟨hci, hc⟩, if_pos hci]
    · rw [if_neg (fun hh => hci hh.1), if_neg hci]
  have hrk : ∀ i, i ≠ s → v.rank.getD i 0 = u.rank.getD i 0 := by
    intro i hi
    rcases ha.rank_eq with ⟨e, _⟩ | ⟨e, _⟩
    · rw [e]
    · rw [e, getD_set_ne _ _ _ _ _ (Ne.symm hi)]
  have hrs_le : u.rank.getD s 0 ≤ v.rank.getD s 0 := by
    rcases ha.rank_eq with ⟨e, _⟩ | ⟨e, _⟩
    · rw [e]
    · rw [e, getD_set_self _ _ _ _ (by rw [h.len_rank]; exact hs)]; omega
  have hrk_le : ∀ i, u.rank.getD i 0 ≤ v.rank.getD i 0 := by
    intro i
    by_cases hi : i = s
    · subst hi; exact hrs_le
    · rw [hrk i hi]
  have hcs : u.rank.getD c 0 < v.rank.getD s 0 := by
    rcases ha.rank_eq with ⟨e, hlt⟩ | ⟨e, heq⟩
    · rw [e]; exact hlt
    · rw [e, getD_set_self _ _ _ _ (by rw [h.len_rank]; exact hs)]; omega
  refine ⟨?_, ?_, ?_, ?_, ?_, ?_, ?_⟩
  · rw [ha.p_eq, List.length_set, h.len_p]
  · rcases ha.rank_eq with ⟨e, _⟩ | ⟨e, _⟩
    · rw [e, h.len_rank]
    · rw [e, List.length_set, h.len_rank]
  · rw [ha.size_eq, List.length_set, h.len_size]
  · intro i hi
    rw [hp i]
    by_cases hci : c = i
    · rw [if_pos hci]; exact hs
    · rw [if_neg hci]; exact h.p_lt i hi
  · intro i hi hnr
    rw [hp i] at hnr ⊢
    by_cases hci : c = i
    · subst hci
      rw [if_pos rfl, hrk c hne]; exact hcs
    · rw [if_neg hci] at hnr ⊢
      have his : i ≠ s := fun e => hnr (e ▸ hrs)
      rw [hrk i his]
      exact lt_of_lt_of_le (h.rank_lt i hi hnr) (hrk_le _)
  · intro i hi
    rw [ha.num_eq]
    have h1 := h.rank_le i hi
    rcases ha.rank_eq with ⟨e, _⟩ | ⟨e, heq⟩
    · rw [e]; omega
    · by_cases his : i = s
      · subst his
        rw [e, getD_set_self _ _ _ _ (by rw [h.len_rank]; exact hs)]
        push_cast; omega
      · rw [hrk i his]; omega
  · rw [ha.num_eq, h.num_eq]
    have := count_below_remove n c (fun i => u.p.getD i i = i) (fun i => v.p.getD i i = i)
      hc hrc (by show ¬ v.p.getD c c = c; rw [hp c, if_pos rfl]; exact Ne.symm hne)
      (by intro i _ hic
          show u.p.getD i i = i ↔ v.p.getD i i = i
          rw [hp i, if_neg (Ne.symm hic)])
    rw [this]; push_cast; omega

/-- After attaching the root `c` under the root `s`, the nodes that resolved
to `c` resolve to `s` and all others are unchanged. -/
theorem Attached.find_eq {u v : Universe} {n c s : Nat} (h : Forest u n)
    (hc : c < n) (hs : s < n) (hrc : u.p.getD c c = c) (hrs : u.p.getD s s = s)
    (hne : c ≠ s) (ha : Attached u v c s) (i : Nat) (hi : i < n) :
    v.find i = if u.find i = c then s else u.find i := by
  have hv : Forest v n := ha.forest h hc hs hrc hrs hne
  have hp : ∀ i, v.p.getD i i = if c = i then s else u.p.getD i i := by
    intro i
    rw [ha.p_eq, getD_set_eq, h.len_p]
    by_cases hci : c = i
    · rw [if_pos ⟨hci, hc⟩, if_pos hci]
    · rw [if_neg (fun hh => hci hh.1), if_neg hci]
  have key : ∀ fuel i, i < n → n ≤ v.rank.getD i 0 + fuel →
      findAux v.p fuel i = if findAux u.p fuel i = c then s else findAux u.p fuel i := by
    intro fuel
    induction fuel with
    | zero =>
      intro i hi hf
      have hroot : v.p.getD i i = i := by
        by_contra hnr
        have h1 := hv.rank_lt i hi hnr
        have h2 := hv.rank_bound _ (hv.p_lt i hi)
        omega
      have hic : i ≠ c := by
        intro e; subst e
        rw [hp i, if_pos rfl] at hroot
        exact hne hroot.symm
      rw [findAux_zero, findAux_zero, if_neg hic]
    | succ f ih =>
      intro i hi hf
      by_cases hic : i = c
      · subst hic
        have h1 : v.p.getD i i = s := by rw [hp i, if_pos rfl]
        have h2 : v.p.getD s s = s := by rw [hp s, if_neg hne]; exact hrs
        rw [findAux_succ, h1, if_neg (Ne.symm hne), findAux_root v.p f s h2,
          findAux_root u.p (f + 1) i hrc, if_pos rfl]
      · have h1 : v.p.getD i i = u.p.getD i i := by rw [hp i, if_neg (Ne.symm hic)]
        by_cases hroot : u.p.getD i i = i
        · rw [findAux_root v.p (f + 1) i (by rw [h1]; exact hroot),
            findAux_root u.p (f + 1) i hroot, if_neg hic]
        · have hlt := hv.rank_lt i hi (by rw [h1]; exact hroot)
          rw [h1] at hlt
          have := ih (u.p.getD i i) (h.p_lt i hi) (by omega)
          rw [findAux_succ, findAux_succ, h1, if_neg hroot, if_neg hroot]
          exact this
  have := key n i hi (by omega)
  unfold Universe.find
  rw [hv.len_p, h.len_p]
  exact this

theorem count_below_true (n : Nat) (P : Nat → Prop) [DecidablePred P]
    (h : ∀ i, i < n → P i) : count_below n P = n := by
  induction n with
  | zero => rfl
  | succ m ih =>
    rw [count_below_succ, ih (fun i hi => h i (Nat.lt_succ_of_lt hi)),
      if_pos (h m (Nat.lt_succ_self m))]

theorem count_below_false (n : Nat) (P : Nat → Prop) [DecidablePred P]
    (h : ∀ i, i < n → ¬ P i) : count_below n P = 0 := by
  induction n with
  | zero => rfl
  | succ m ih =>
    rw [count_below_succ, ih (fun i hi => h i (Nat.lt_succ_of_lt hi)),
      if_neg (h m (Nat.lt_succ_self m))]

theorem count_below_mono (n : Nat) (P Q : Nat → Prop) [DecidablePred P] [DecidablePred Q]
    (h : ∀ i, i < n → P i → Q i) : count_below n P ≤ count_below n Q := by
  induction n with
  | zero => exact Nat.le_refl _
  | succ m ih =>
    rw [count_below_succ, count_below_succ]
    have h1 := ih (fun i hi => h i (Nat.lt_succ_of_lt hi))
    have h2 := h m (Nat.lt_succ_self m)
    by_cases hp : P m
    · rw [if_pos hp, if_pos (h2 hp)]; omega
    · rw [if_neg hp]; split <;> omega

theorem count_below_single (n r : Nat) (hr : r < n) :
    count_below n (fun i => i = r) = 1 := by
  have := count_below_remove n r (fun i => i = r) (fun _ => False) hr rfl (fun h => h)
    (fun i _ hne => ⟨fun h => hne h, fun h => h.elim⟩)
  rw [this, count_below_false n (fun _ => False) (fun _ _ h => h)]

theorem range_getD_self (n i : Nat) : (List.range n).getD i i = i := by
  by_cases h : i < n
  · rw [List.getD_eq_getElem _ _ (by rw [List.length_range]; exact h), List.getElem_range]
  · rw [List.getD_eq_default _ _ (by rw [List.length_range]; omega)]

theorem replicate_getD {α : Type} (n i : Nat) (v : α) (hi : i < n) :
    (List.replicate n v).getD i v = v := by
  rw [List.getD_eq_getElem _ _ (by rw [List.length_replicate]; exact hi),
    List.getElem_replicate]

theorem create_find (n i : Nat) : (Universe.create n).find i = i :=
  find_of_root _ i (range_getD_self n i)

theorem create_forest (n : Nat) : Forest (Universe.create n) n := by
  refine ⟨?_, ?_, ?_, ?_, ?_, ?_, ?_⟩
  · exact List.length_range n
  · exact List.length_replicate n 0
  · exact List.length_replicate n 1
  · intro i hi
    show (List.range n).getD i i < n
    rw [range_getD_self]; exact hi
  · intro i _ hne
    exact absurd (range_getD_self n i) hne
  · intro i hi
    show (((List.replicate n 0).getD i 0 : Nat) : Int) + (n : Int) ≤ n
    rw [replicate_getD n i 0 hi]; simp
  · show (n : Int) = (count_below n (fun i => (List.range n).getD i i = i) : Nat)
    rw [count_below_true n _ (fun i _ => range_getD_self n i)]

theorem create_wf (n : Nat) : WF (Universe.create n) n := by
  refine ⟨create_forest n, ?_⟩
  intro r hr _
  show (List.replicate n 1).getD r 0 = _
  rw [List.getD_eq_getElem _ _ (by rw [List.length_replicate]; exact hr),
    List.getElem_replicate]
  rw [count_below_congr n _ (fun i => i = r) (fun i _ => by rw [create_find])]
  exact (count_below_single n r hr).symm

theorem Attached.wf {u v : Universe} {n c s : Nat} (h : WF u n)
    (hc : c < n) (hs : s < n) (hrc : u.p.getD c c = c) (hrs : u.p.getD s s = s)
    (hne : c ≠ s) (ha : Attached u v c s) : WF v n := by
  have hf := h.forest
  have hv : Forest v n := ha.forest hf hc hs hrc hrs hne
  have hfind := fun i hi => ha.find_eq hf hc hs hrc hrs hne i hi
  have hp : ∀ i, v.p.getD i i = if c = i then s else u.p.getD i i := by
    intro i
    rw [ha.p_eq, getD_set_eq, hf.len_p]
    by_cases hci : c = i
    · rw [if_pos ⟨hci, hc⟩, if_pos hci]
    · rw [if_neg (fun hh => hci hh.1), if_neg hci]
  refine ⟨hv, ?_⟩
  intro r hr hroot
  have hrc' : r ≠ c := by
    intro e; subst e
    rw [hp r, if_pos rfl] at hroot
    exact hne hroot.symm
  have hroot_u : u.p.getD r r = r := by
    rw [hp r, if_neg (Ne.symm hrc')] at hroot; exact hroot
  by_cases hrs' : r = s
  · subst hrs'
    rw [ha.size_eq, getD_set_self _ _ _ _ (by rw [hf.len_size]; exact hs),
      h.size_eq r hs hrs, h.size_eq c hc hrc]
    rw [← count_below_or n (fun i => u.find i = r) (fun i => u.find i = c)
      (fun i _ hh => hne (hh.2.symm.trans hh.1))]
    apply count_below_congr
    intro i hi
    rw [hfind i hi]
    by_cases hic : u.find i = c
    · rw [if_pos hic]; exact ⟨fun _ => rfl, fun _ => Or.inr hic⟩
    · rw [if_neg hic]
      exact ⟨fun hh => hh.resolve_right hic, fun hh => Or.inl hh⟩
  · rw [ha.size_eq, getD_set_ne _ _ _ _ _ (Ne.symm hrs'), h.size_eq r hr hroot_u]
    apply count_below_congr
    intro i hi
    rw [hfind i hi]
    by_cases hic : u.find i = c
    · rw [if_pos hic]
      exact ⟨fun hh => absurd (hic.symm.trans hh) (Ne.symm hrc'),
        fun hh => absurd hh.symm hrs'⟩
    · rw [if_neg hic]

theorem join_attached (u : Universe) (x y : Nat) :
    (u.rank.getD x 0 > u.rank.getD y 0 → Attached u (u.join x y) y x) ∧
    (¬ u.rank.getD x 0 > u.rank.getD y 0 → Attached u (u.join x y) x y) := by
  constructor
  · intro h
    unfold Universe.join
    rw [if_pos h]
    exact ⟨rfl, Or.inl ⟨rfl, h⟩, rfl, rfl⟩
  · intro h
    unfold Universe.join
    rw [if_neg h]
    by_cases he : u.rank.getD x 0 = u.rank.getD y 0
    · exact ⟨rfl, Or.inr ⟨by simp only [if_pos he], he⟩, rfl, rfl⟩
    · refine ⟨rfl, Or.inl ⟨by simp only [if_neg he], ?_⟩, rfl, rfl⟩
      omega

/-- The join of two distinct roots keeps the universe well formed, lowers the
component count by one and sends the nodes of both components to one
surviving root, leaving every other node alone. -/
theorem WF.join_spec {u : Universe} {n x y : Nat} (h : WF u n)
    (hx : x < n) (hy : y < n) (hrx : u.p.getD x x = x) (hry : u.p.getD y y = y)
    (hne : x ≠ y) :
    WF (u.join x y) n ∧ (u.join x y).num = u.num - 1 ∧
      ∃ s, (s = x ∨ s = y) ∧ ∀ i, i < n →
        (u.join x y).find i = if u.find i = x ∨ u.find i = y then s else u.find i := by
  by_cases hr : u.rank.getD x 0 > u.rank.getD y 0
  · have ha := (join_attached u x y).1 hr
    refine ⟨ha.wf h hy hx hry hrx (Ne.symm hne), ha.num_eq, x, Or.inl rfl, ?_⟩
    intro i hi
    rw [ha.find_eq h.forest hy hx hry hrx (Ne.symm hne) i hi]
    by_cases h1 : u.find i = y
    · rw [if_pos h1, if_pos (Or.inr h1)]
    · rw [if_neg h1]
      by_cases h2 : u.find i = x
      · rw [if_pos (Or.inl h2), h2]
      · rw [if_neg (fun hh => hh.elim h2 h1)]
  · have ha := (join_attached u x y).2 hr
    refine ⟨ha.wf h hx hy hrx hry hne, ha.num_eq, y, Or.inr rfl, ?_⟩
    intro i hi
    rw [ha.find_eq h.forest hx hy hrx hry hne i hi]
    by_cases h1 : u.find i = x
    · rw [if_pos h1, if_pos (Or.inl h1)]
    · rw [if_neg h1]
      by_cases h2 : u.find i = y
      · rw [if_pos (Or.inr h2), h2]
      · rw [if_neg (fun hh => hh.elim h1 h2)]

/-! ## The merge loops -/

theorem coarsens_refl (n : Nat) (u : Universe) : coarsens n u u :=
  fun _ _ _ _ h => h

theorem coarsens_trans {n : Nat} {u v w : Universe} (h1 : coarsens n u v)
    (h2 : coarsens n v w) : coarsens n u w :=
  fun i j hi hj h => h2 i j hi hj (h1 i j hi hj h)

theorem linked_mono {E : List edge} {n : Nat} {u v : Universe}
    (hE : ∀ e ∈ E, e.a < n ∧ e.b < n) (hc : coarsens n u v) {i j : Nat}
    (h : linked E u i j) : linked E v i j := by
  refine Relation.ReflTransGen.mono ?_ h
  rintro s t ⟨hadj, hst⟩
  refine ⟨hadj, ?_⟩
  obtain ⟨e, he, h1 | h1⟩ := hadj
  · exact hc s t (h1.1 ▸ (hE e he).1) (h1.2 ▸ (hE e he).2) hst
  · exact hc s t (h1.2 ▸ (hE e he).2) (h1.1 ▸ (hE e he).1) hst

theorem linked_symm {E : List edge} {u : Universe} {i j : Nat}
    (h : linked E u i j) : linked E u j i := by
  refine Relation.ReflTransGen.symmetric ?_ h
  rintro s t ⟨⟨e, he, h1⟩, hst⟩
  exact ⟨⟨e, he, h1.symm⟩, hst.symm⟩

theorem linked_trans {E : List edge} {u : Universe} {i j k : Nat}
    (h1 : linked E u i j) (h2 : linked E u j k) : linked E u i k :=
  Relation.ReflTransGen.trans h1 h2

/-- One loop iteration keeps the invariant, only coarsens the partition, and
either leaves the universe alone or lowers the count by one and puts the two
endpoints of the edge together. -/
theorem Inv.merge_step_inv {E : List edge} {n : Nat} {u v : Universe} {e : edge}
    (hE : ∀ e ∈ E, e.a < n ∧ e.b < n) (h : Inv E n u) (he : e ∈ E)
    (hs : merge_step u v e) :
    Inv E n v ∧ coarsens n u v ∧
      (v = u ∨ (v.num = u.num - 1 ∧ v.find e.a = v.find e.b)) := by
  rcases hs with rfl | ⟨hne, rfl⟩
  · exact ⟨h, coarsens_refl n _, Or.inl rfl⟩
  · have ha := (hE e he).1
    have hb := (hE e he).2
    have hf := h.wf.forest
    obtain ⟨hwf, hnum, s, hs, hfind⟩ := h.wf.join_spec (hf.find_lt _ ha) (hf.find_lt _ hb)
      (hf.find_root _ ha) (hf.find_root _ hb) hne
    have hco : coarsens n u (u.join (u.find e.a) (u.find e.b)) := by
      intro i j hi hj hij
      rw [hfind i hi, hfind j hj, hij]
    have hab : (u.join (u.find e.a) (u.find e.b)).find e.a =
        (u.join (u.find e.a) (u.find e.b)).find e.b := by
      rw [hfind _ ha, hfind _ hb, if_pos (Or.inl rfl), if_pos (Or.inr rfl)]
    have hedge : linked E (u.join (u.find e.a) (u.find e.b)) e.a e.b :=
      Relation.ReflTransGen.single ⟨⟨e, he, Or.inl ⟨rfl, rfl⟩⟩, hab⟩
    have hto : ∀ i, i < n → (u.find i = u.find e.a ∨ u.find i = u.find e.b) →
        linked E (u.join (u.find e.a) (u.find e.b)) i e.a := by
      intro i hi hi2
      rcases hi2 with h1 | h1
      · exact linked_mono hE hco (h.conn i e.a hi ha h1)
      · exact linked_trans (linked_mono hE hco (h.conn i e.b hi hb h1)) (linked_symm hedge)
    refine ⟨⟨hwf, ?_⟩, hco, Or.inr ⟨hnum, hab⟩⟩
    intro i j hi hj hij
    rw [hfind i hi, hfind j hj] at hij
    by_cases hi2 : u.find i = u.find e.a ∨ u.find i = u.find e.b
    · by_cases hj2 : u.find j = u.find e.a ∨ u.find j = u.find e.b
      · exact linked_trans (hto i hi hi2) (linked_symm (hto j hj hj2))
      · rw [if_pos hi2, if_neg hj2] at hij
        exact absurd (hij ▸ hs.symm) (by rcases hs with rfl | rfl <;> tauto)
    · by_cases hj2 : u.find j = u.find e.a ∨ u.find j = u.find e.b
      · rw [if_neg hi2, if_pos hj2] at hij
        exact absurd (hij ▸ hs) (by rcases hs with rfl | rfl <;> tauto)
      · rw [if_neg hi2, if_neg hj2] at hij
        exact linked_mono hE hco (h.conn i j hi hj hij)

/-- A loop whose every iteration is a merge step keeps the invariant, only
coarsens the partition and never raises the component count. -/
theorem Inv.merge_fold {σ : Type} (f : σ → edge → σ) (π : σ → Universe)
    (hstep : ∀ st e, merge_step (π st) (π (f st e)) e)
    {E : List edge} {n : Nat} (hE : ∀ e ∈ E, e.a < n ∧ e.b < n) :
    ∀ (es : List edge) (st : σ), (∀ e ∈ es, e ∈ E) → Inv E n (π st) →
      Inv E n (π (es.foldl f st)) ∧ coarsens n (π st) (π (es.foldl f st)) ∧
        (π (es.foldl f st)).num ≤ (π st).num := by
  intro es
  induction es with
  | nil => intro st _ h; exact ⟨h, coarsens_refl n _, le_refl _⟩
  | cons e es ih =>
    intro st hes h
    obtain ⟨h1, h2, h3⟩ := h.merge_step_inv hE (hes e (List.mem_cons_self e es)) (hstep st e)
    obtain ⟨h4, h5, h6⟩ := ih (f st e) (fun e' he' => hes e' (List.mem_cons_of_mem e he')) h1
    refine ⟨h4, coarsens_trans h2 h5, ?_⟩
    rw [List.foldl_cons]
    rcases h3 with h3 | ⟨h3, _⟩
    · rw [h3] at h6; exact h6
    · omega

theorem segment_graph_step_merge (c : ℚ) (st : Universe × List ℚ) (e : edge) :
    merge_step st.1 (segment_graph_step c st e).1 e := by
  unfold segment_graph_step
  by_cases h1 : st.1.find e.a ≠ st.1.find e.b
  · by_cases h2 : e.w ≤ min (threshold st.1 st.2 c (st.1.find e.a))
        (threshold st.1 st.2 c (st.1.find e.b))
    · simp only [if_pos h1, if_pos h2]
      exact Or.inr ⟨h1, rfl⟩
    · simp only [if_pos h1, if_neg h2]
      exact Or.inl rfl
  · simp only [if_neg h1]
    exact Or.inl rfl

theorem postprocess_step_merge (min_size : Int) (u : Universe) (e : edge) :
    merge_step u (postprocess_step min_size u e) e := by
  unfold postprocess_step
  by_cases h : u.find e.a ≠ u.find e.b ∧
      ((u.size (u.find e.a) : Int) < min_size ∨ (u.size (u.find e.b) : Int) < min_size)
  · simp only [if_pos h]
    exact Or.inr ⟨h.1, rfl⟩
  · simp only [if_neg h]
    exact Or.inl rfl

theorem create_inv (E : List edge) (n : Nat) : Inv E n (Universe.create n) := by
  refine ⟨create_wf n, ?_⟩
  intro i j _ _ h
  rw [create_find, create_find] at h
  subst h
  exact Relation.ReflTransGen.refl

theorem mem_sort_edges (E : List edge) (e : edge) : e ∈ sort_edges E ↔ e ∈ E :=
  (List.perm_insertionSort _ E).mem_iff

/-! ## The graph -/

theorem mem_pixel_edges (sqrt : ℚ → ℚ) (r g b : image ℚ) (W H x y : Nat) (e : edge) :
    e ∈ pixel_edges sqrt r g b W H x y ↔
      (x < W - 1 ∧ e = { a := y * W + x, b := y * W + (x + 1)
                         w := diff sqrt r g b x y (x + 1) y }) ∨
      (y < H - 1 ∧ e = { a := y * W + x, b := (y + 1) * W + x
                         w := diff sqrt r g b x y x (y + 1) }) ∨
      (x < W - 1 ∧ y < H - 1 ∧ e = { a := y * W + x, b := (y + 1) * W + (x + 1)
                                     w := diff sqrt r g b x y (x + 1) (y + 1) }) ∨
      (x < W - 1 ∧ y > 0 ∧ e = { a := y * W + x, b := (y - 1) * W + (x + 1)
                                 w := diff sqrt r g b x y (x + 1) (y - 1) }) := by
  unfold pixel_edges
  simp only [List.mem_append, List.mem_ite_nil_right, List.mem_singleton, and_assoc, or_assoc]

theorem mem_build_graph (sqrt : ℚ → ℚ) (r g b : image ℚ) (W H : Nat) (e : edge) :
    e ∈ build_graph sqrt r g b W H ↔
      ∃ y, y < H ∧ ∃ x, x < W ∧ e ∈ pixel_edges sqrt r g b W H x y := by
  unfold build_graph
  simp only [List.mem_flatMap, List.mem_range]

theorem idx_lt {W H x y : Nat} (hx : x < W) (hy : y < H) : y * W + x < W * H := by
  have h1 : (y + 1) * W ≤ H * W := Nat.mul_le_mul_right W hy
  rw [Nat.succ_mul] at h1
  rw [Nat.mul_comm W H]
  omega

/-- Both endpoints of every generated edge are node ids of the image. -/
theorem build_graph_lt (sqrt : ℚ → ℚ) (r g b : image ℚ) (W H : Nat) (e : edge)
    (he : e ∈ build_graph sqrt r g b W H) : e.a < W * H ∧ e.b < W * H := by
  rw [mem_build_graph] at he
  obtain ⟨y, hy, x, hx, he⟩ := he
  rw [mem_pixel_edges] at he
  rcases he with ⟨h1, rfl⟩ | ⟨h1, rfl⟩ | ⟨h1, h2, rfl⟩ | ⟨h1, h2, rfl⟩
  · exact ⟨idx_lt hx hy, idx_lt (by omega) hy⟩
  · exact ⟨idx_lt hx hy, idx_lt hx (by omega)⟩
  · exact ⟨idx_lt hx hy, idx_lt (by omega) (by omega)⟩
  · exact ⟨idx_lt hx hy, idx_lt (by omega) (by omega)⟩

/-- Every pixel but the first is the second endpoint of a generated edge
whose first endpoint has a smaller node id (its left neighbour, or the pixel
above in the first column). -/
theorem build_graph_pred (sqrt : ℚ → ℚ) (r g b : image ℚ) (W H i : Nat)
    (h0 : 0 < i) (hi : i < W * H) :
    ∃ e ∈ build_graph sqrt r g b W H, e.b = i ∧ e.a < i := by
  have hW : 0 < W := by
    rcases Nat.eq_zero_or_pos W with h | h
    · subst h; simp at hi
    · exact h
  have hdm : W * (i / W) + i % W = i := Nat.div_add_mod i W
  have hx : i % W < W := Nat.mod_lt i hW
  have hy : i / W < H := (Nat.div_lt_iff_lt_mul hW).mpr (by rw [Nat.mul_comm]; exact hi)
  rw [Nat.mul_comm] at hdm
  by_cases hx0 : i % W = 0
  · have hy0 : 0 < i / W := by
      rcases Nat.eq_zero_or_pos (i / W) with h | h
      · rw [h, hx0] at hdm; omega
      · exact h
    refine ⟨{ a := (i / W - 1) * W + 0, b := (i / W - 1 + 1) * W + 0
              w := diff sqrt r g b 0 (i / W - 1) 0 (i / W - 1 + 1) }, ?_, ?_, ?_⟩
    · rw [mem_build_graph]
      refine ⟨i / W - 1, by omega, 0, hW, ?_⟩
      rw [mem_pixel_edges]
      exact Or.inr (Or.inl ⟨by omega, rfl⟩)
    · show (i / W - 1 + 1) * W + 0 = i
      rw [Nat.sub_add_cancel hy0]; omega
    · show (i / W - 1) * W + 0 < i
      have : (i / W - 1 + 1) * W = (i / W - 1) * W + W := Nat.succ_mul _ _
      rw [Nat.sub_add_cancel hy0] at this
      omega
  · refine ⟨{ a := (i / W) * W + (i % W - 1), b := (i / W) * W + (i % W - 1 + 1)
              w := diff sqrt r g b (i % W - 1) (i / W) (i % W - 1 + 1) (i / W) }, ?_, ?_, ?_⟩
    · rw [mem_build_graph]
      refine ⟨i / W, hy, i % W - 1, by omega, ?_⟩
      rw [mem_pixel_edges]
      exact Or.inl ⟨by omega, rfl⟩
    · show (i / W) * W + (i % W - 1 + 1) = i
      omega
    · show (i / W) * W + (i % W - 1) < i
      omega

/-- The generated graph is connected: a property of node ids that every
generated edge carries from each endpoint to the other, and that holds of the
first pixel, holds of all pixels. -/
theorem build_graph_connected (sqrt : ℚ → ℚ) (r g b : image ℚ) (W H : Nat)
    (S : Nat → Prop) (hS : ∀ e ∈ build_graph sqrt r g b W H, (S e.a ↔ S e.b))
    (h0 : S 0) : ∀ i, i < W * H → S i := by
  intro i
  induction i using Nat.strong_induction_on with
  | _ i ih =>
    intro hi
    rcases Nat.eq_zero_or_pos i with h | h
    · subst h; exact h0
    · obtain ⟨e, he, hb, ha⟩ := build_graph_pred sqrt r g b W H i h hi
      have := ih e.a ha (by omega)
      rw [← hb]
      exact (hS e he).mp this

theorem idx_mod {W x : Nat} (y : Nat) (hx : x < W) : (y * W + x) % W = x := by
  rw [Nat.mul_comm, Nat.mul_add_mod, Nat.mod_eq_of_lt hx]

theorem idx_div {W x : Nat} (y : Nat) (hx : x < W) : (y * W + x) / W = y := by
  have hW : 0 < W := by omega
  rw [Nat.mul_comm, Nat.mul_add_div hW, Nat.div_eq_of_lt hx, Nat.add_zero]

theorem idx_inj {W x y x' y' : Nat} (hx : x < W) (hx' : x' < W)
    (h : y * W + x = y' * W + x') : x = x' ∧ y = y' := by
  have h1 := idx_mod y hx
  have h2 := idx_div y hx
  rw [h, idx_mod y' hx'] at h1
  rw [h, idx_div y' hx'] at h2
  exact ⟨h1.symm, h2.symm⟩

/-- The edges appended for one pixel have pairwise different second
endpoints. -/
theorem pixel_keys_nodup (sqrt : ℚ → ℚ) (r g b : image ℚ) (W H x y : Nat) :
    ((pixel_edges sqrt r g b W H x y).map edge_key).Nodup := by
  unfold pixel_edges edge_key
  cases y with
  | zero =>
    by_cases h1 : x < W - 1 <;> by_cases h2 : 0 < H - 1
    all_goals simp [h1, h2]
    all_goals omega
  | succ y0 =>
    have e1 : (y0 + 1 + 1) * W = y0 * W + W + W := by rw [Nat.succ_mul, Nat.succ_mul]
    have e2 : (y0 + 1) * W = y0 * W + W := Nat.succ_mul _ _
    by_cases h1 : x < W - 1 <;> by_cases h2 : y0 + 1 < H - 1
    all_goals simp [h1, h2, e1, e2]
    all_goals omega

theorem pixel_key_fst (sqrt : ℚ → ℚ) (r g b : image ℚ) (W H x y : Nat) (k : Nat × Nat)
    (hk : k ∈ (pixel_edges sqrt r g b W H x y).map edge_key) : k.1 = y * W + x := by
  rw [List.mem_map] at hk
  obtain ⟨e, he, rfl⟩ := hk
  rw [mem_pixel_edges] at he
  rcases he with ⟨_, rfl⟩ | ⟨_, rfl⟩ | ⟨_, _, rfl⟩ | ⟨_, _, rfl⟩ <;> rfl

/-- No ordered pair of endpoints is generated twice. -/
theorem build_graph_keys_nodup (sqrt : ℚ → ℚ) (r g b : image ℚ) (W H : Nat) :
    ((build_graph sqrt r g b W H).map edge_key).Nodup := by
  unfold build_graph
  rw [List.map_flatMap, List.nodup_flatMap]
  constructor
  · intro y _
    rw [List.map_flatMap, List.nodup_flatMap]
    refine ⟨fun x _ => pixel_keys_nodup sqrt r g b W H x y, ?_⟩
    refine (List.nodup_range W).pairwise_of_forall_ne ?_
    intro x hx x' hx' hne k hk hk'
    have h1 := pixel_key_fst sqrt r g b W H x y k hk
    have h2 := pixel_key_fst sqrt r g b W H x' y k hk'
    rw [h1] at h2
    exact hne (idx_inj (List.mem_range.mp hx) (List.mem_range.mp hx') h2).1
  · refine (List.nodup_range H).pairwise_of_forall_ne ?_
    intro y _ y' _ hne k hk hk'
    simp only [List.map_flatMap, List.mem_flatMap] at hk hk'
    obtain ⟨x, hx, hk⟩ := hk
    obtain ⟨x', hx', hk'⟩ := hk'
    have h1 := pixel_key_fst sqrt r g b W H x y k hk
    have h2 := pixel_key_fst sqrt r g b W H x' y' k hk'
    rw [h1] at h2
    exact hne (idx_inj (List.mem_range.mp hx) (List.mem_range.mp hx') h2).2

/-- Every generated edge points forward: to a larger column, or down the same
column. -/
theorem build_graph_forward (sqrt : ℚ → ℚ) (r g b : image ℚ) (W H : Nat) (e : edge)
    (he : e ∈ build_graph sqrt r g b W H) :
    e.a % W < e.b % W ∨ (e.a % W = e.b % W ∧ e.a < e.b) := by
  rw [mem_build_graph] at he
  obtain ⟨y, hy, x, hx, he⟩ := he
  rw [mem_pixel_edges] at he
  rcases he with ⟨h1, rfl⟩ | ⟨h1, rfl⟩ | ⟨h1, h2, rfl⟩ | ⟨h1, h2, rfl⟩
  · left
    show (y * W + x) % W < (y * W + (x + 1)) % W
    rw [idx_mod y hx, idx_mod y (show x + 1 < W by omega)]; omega
  · right
    show (y * W + x) % W = ((y + 1) * W + x) % W ∧ y * W + x < (y + 1) * W + x
    rw [idx_mod y hx, idx_mod (y + 1) hx, Nat.succ_mul]
    exact ⟨rfl, by omega⟩
  · left
    show (y * W + x) % W < ((y + 1) * W + (x + 1)) % W
    rw [idx_mod y hx, idx_mod (y + 1) (show x + 1 < W by omega)]; omega
  · left
    show (y * W + x) % W < ((y - 1) * W + (x + 1)) % W
    rw [idx_mod y hx, idx_mod (y - 1) (show x + 1 < W by omega)]; omega

/-- A pixel and its right, lower, lower-right or upper-right neighbour are
the first and second endpoint of a generated edge. -/
theorem build_graph_forward_edge (sqrt : ℚ → ℚ) (r g b : image ℚ) (W H x y x' y' : Nat)
    (hx' : x' < W) (hy : y < H) (hy' : y' < H)
    (h : (x' = x + 1 ∧ (y' = y ∨ y' = y + 1 ∨ y = y' + 1)) ∨ (x' = x ∧ y' = y + 1)) :
    ∃ e ∈ build_graph sqrt r g b W H, e.a = y * W + x ∧ e.b = y' * W + x' := by
  rcases h with ⟨rfl, rfl | rfl | rfl⟩ | ⟨rfl, rfl⟩
  · refine ⟨{ a := y' * W + x, b := y' * W + (x + 1)
              w := diff sqrt r g b x y' (x + 1) y' }, ?_, rfl, rfl⟩
    rw [mem_build_graph]
    refine ⟨y', hy, x, by omega, ?_⟩
    rw [mem_pixel_edges]
    exact Or.inl ⟨by omega, rfl⟩
  · refine ⟨{ a := y * W + x, b := (y + 1) * W + (x + 1)
              w := diff sqrt r g b x y (x + 1) (y + 1) }, ?_, rfl, rfl⟩
    rw [mem_build_graph]
    refine ⟨y, hy, x, by omega, ?_⟩
    rw [mem_pixel_edges]
    exact Or.inr (Or.inr (Or.inl ⟨by omega, by omega, rfl⟩))
  · refine ⟨{ a := (y' + 1) * W + x, b := (y' + 1 - 1) * W + (x + 1)
              w := diff sqrt r g b x (y' + 1) (x + 1) (y' + 1 - 1) }, ?_, rfl, ?_⟩
    · rw [mem_build_graph]
      refine ⟨y' + 1, hy, x, by omega, ?_⟩
      rw [mem_pixel_edges]
      exact Or.inr (Or.inr (Or.inr ⟨by omega, by omega, rfl⟩))
    · show (y' + 1 - 1) * W + (x + 1) = y' * W + (x + 1)
      rw [Nat.add_sub_cancel]
  · refine ⟨{ a := y * W + x', b := (y + 1) * W + x'
              w := diff sqrt r g b x' y x' (y + 1) }, ?_, rfl, rfl⟩
    rw [mem_build_graph]
    refine ⟨y, hy, x', hx', ?_⟩
    rw [mem_pixel_edges]
    exact Or.inr (Or.inl ⟨by omega, rfl⟩)

theorem pixel_edges_length (sqrt : ℚ → ℚ) (r g b : image ℚ) (W H x y : Nat) :
    (pixel_edges sqrt r g b W H x y).length =
      (if x < W - 1 then 1 else 0) + (if y < H - 1 then 1 else 0) +
        (if x < W - 1 ∧ y < H - 1 then 1 else 0) + (if x < W - 1 ∧ y > 0 then 1 else 0) := by
  unfold pixel_edges
  simp only [List.length_append]
  split_ifs <;> rfl

theorem length_flatMap_le {α β : Type} (f : α → List β) (k : Nat) :
    ∀ l : List α, (∀ a ∈ l, (f a).length ≤ k) → (l.flatMap f).length ≤ k * l.length := by
  intro l
  induction l with
  | nil => intro _; simp
  | cons a l ih =>
    intro h
    rw [List.flatMap_cons, List.length_append, List.length_cons, Nat.mul_succ]
    have h1 := h a (List.mem_cons_self a l)
    have h2 := ih (fun a' ha' => h a' (List.mem_cons_of_mem a ha'))
    omega

theorem int32_of_small (n : Int) (h0 : 0 ≤ n) (h1 : n < 2147483648) : int32 n = n := by
  unfold int32
  omega

/-- When `width*height*4` fits an `int` the computed capacity is its exact
value. -/
theorem edge_capacity_eq (W H : Nat) (h : W * H * 4 < 2147483648) :
    edge_capacity W H = ((W * H * 4 : Nat) : Int) := by
  unfold edge_capacity
  have h0 : (0 : Int) ≤ (W : Int) * (H : Int) := by positivity
  have h1 : (W : Int) * (H : Int) * 4 < 2147483648 := by
    have : ((W * H * 4 : Nat) : Int) < 2147483648 := by exact_mod_cast h
    push_cast at this
    exact this
  rw [int32_of_small _ h0 (by omega), int32_of_small _ (by omega) h1]
  push_cast
  rfl

/-- An image at least two pixels wide has a first edge: index 0 of the edge
array is written. -/
theorem build_graph_first_write (sqrt : ℚ → ℚ) (r g b : image ℚ) (W H : Nat)
    (hW : 2 ≤ W) (hH : 1 ≤ H) : ∃ e, (build_graph sqrt r g b W H)[0]? = some e := by
  have hmem : ({ a := 0 * W + 0, b := 0 * W + (0 + 1), w := diff sqrt r g b 0 0 (0 + 1) 0 } :
      edge) ∈ build_graph sqrt r g b W H := by
    rw [mem_build_graph]
    refine ⟨0, by omega, 0, by omega, ?_⟩
    rw [mem_pixel_edges]
    exact Or.inl ⟨by omega, rfl⟩
  cases hl : build_graph sqrt r g b W H with
  | nil => rw [hl] at hmem; exact absurd hmem (List.not_mem_nil _)
  | cons e es => exact ⟨e, List.getElem?_cons_zero⟩

/-! ## The labelling loops -/

theorem nested_fold {σ : Type} (f : σ → Nat → σ) (W : Nat) :
    ∀ (H : Nat) (st : σ),
      (List.range H).foldl
        (fun st y => (List.range W).foldl (fun st x => f st (y * W + x)) st) st =
      (List.range (W * H)).foldl f st := by
  intro H
  induction H with
  | zero => intro st; simp
  | succ H ih =>
    intro st
    rw [List.range_succ, List.foldl_append, ih, Nat.mul_succ, List.range_add,
      List.foldl_append, List.foldl_map]
    simp only [List.foldl_cons, List.foldl_nil, Nat.mul_comm H W]

theorem label_loop_eq (u : Universe) (W H : Nat) :
    label_loop u W H = (List.range (W * H)).foldl (label_px u) (label_init (W * H)) :=
  nested_fold (label_px u) W H (label_init (W * H))

theorem label_px_new (u : Universe) (st : label_state) (i : Nat)
    (h : st.colors.getD (u.find i) 0 = 0) :
    label_px u st i =
      { colors := st.colors.set (u.find i) st.curr_idx
        curr_idx := st.curr_idx + 1
        output := st.output.set i
          ((st.colors.set (u.find i) st.curr_idx).getD (u.find i) 0) } := by
  unfold label_px
  simp only [if_pos h]

theorem label_px_old (u : Universe) (st : label_state) (i : Nat)
    (h : st.colors.getD (u.find i) 0 ≠ 0) :
    label_px u st i =
      { colors := st.colors, curr_idx := st.curr_idx
        output := st.output.set i (st.colors.getD (u.find i) 0) } := by
  unfold label_px
  simp only [if_neg h]

theorem LInv.at_start (u : Universe) (n : Nat) : LInv u n 0 (label_init n) := by
  have hz : ∀ r, (List.replicate n (0 : Int)).getD r 0 = 0 := by
    intro r
    by_cases h : r < n
    · exact replicate_getD n r 0 h
    · rw [List.getD_eq_default _ _ (by rw [List.length_replicate]; omega)]
  refine ⟨List.length_replicate n 0, List.length_replicate n 0, le_refl _, ?_, ?_, ?_, ?_,
    ?_, ?_, ?_⟩
  · intro r _
    constructor
    · intro h; exact absurd (hz r) h
    · rintro ⟨i, hi, _⟩; omega
  · intro r _ h; exact absurd (hz r) h
  · intro r r' _ _ h; exact absurd (hz r) h
  · intro i hi; omega
  · intro i hi; omega
  · intro k h1 h2
    have : (label_init n).curr_idx = 1 := rfl
    omega
  · show (1 : Int) = _
    rw [count_below_false n _ (fun r _ h => h (hz r))]
    rfl

theorem LInv.label_step_inv {u : Universe} {n m : Nat} {st : label_state}
    (hf : ∀ i, i < n → u.find i < n) (hm : m < n) (h : LInv u n m st) :
    LInv u n (m + 1) (label_px u st m) := by
  have hr0 := hf m hm
  by_cases hnew : st.colors.getD (u.find m) 0 = 0
  · rw [label_px_new u st m hnew]
    have hc : ∀ r, (st.colors.set (u.find m) st.curr_idx).getD r 0 =
        if u.find m = r then st.curr_idx else st.colors.getD r 0 := by
      intro r
      rw [getD_set_eq, h.len_colors]
      by_cases e : u.find m = r
      · rw [if_pos ⟨e, hr0⟩, if_pos e]
      · rw [if_neg (fun hh => e hh.1), if_neg e]
    have ho : ∀ i, (st.output.set m st.curr_idx).getD i 0 =
        if m = i then st.curr_idx else st.output.getD i 0 := by
      intro i
      rw [getD_set_eq, h.len_output]
      by_cases e : m = i
      · rw [if_pos ⟨e, hm⟩, if_pos e]
      · rw [if_neg (fun hh => e hh.1), if_neg e]
    have hpos := h.idx_pos
    have hseen_ne : ∀ i, i < m → u.find i ≠ u.find m := by
      intro i hi e
      exact ((h.seen (u.find m) hr0).mpr ⟨i, hi, e⟩) hnew
    refine ⟨?_, ?_, ?_, ?_, ?_, ?_, ?_, ?_, ?_, ?_⟩
    · show (st.colors.set _ _).length = n
      rw [List.length_set]; exact h.len_colors
    · show (st.output.set _ _).length = n
      rw [List.length_set]; exact h.len_output
    · show 1 ≤ st.curr_idx + 1
      omega
    · intro r hr
      show (st.colors.set _ _).getD r 0 ≠ 0 ↔ _
      rw [hc r]
      by_cases e : u.find m = r
      · rw [if_pos e]
        exact ⟨fun _ => ⟨m, Nat.lt_succ_self m, e⟩, fun _ => by omega⟩
      · rw [if_neg e, h.seen r hr]
        constructor
        · rintro ⟨i, hi, hi2⟩; exact ⟨i, Nat.lt_succ_of_lt hi, hi2⟩
        · rintro ⟨i, hi, hi2⟩
          rcases Nat.lt_succ_iff_lt_or_eq.mp hi with h1 | h1
          · exact ⟨i, h1, hi2⟩
          · subst h1; exact absurd hi2 e
    · intro r hr
      show (st.colors.set _ _).getD r 0 ≠ 0 →
        1 ≤ (st.colors.set _ _).getD r 0 ∧ (st.colors.set _ _).getD r 0 < st.curr_idx + 1
      rw [hc r]
      by_cases e : u.find m = r
      · rw [if_pos e]; intro _; omega
      · rw [if_neg e]; intro hh
        have := h.range r hr hh
        omega
    · intro r r' hr hr'
      show (st.colors.set _ _).getD r 0 ≠ 0 →
        (st.colors.set _ _).getD r 0 = (st.colors.set _ _).getD r' 0 → r = r'
      rw [hc r, hc r']
      by_cases e : u.find m = r <;> by_cases e' : u.find m = r'
      · intro _ _; exact e.symm.trans e'
      · rw [if_pos e, if_neg e']
        intro _ hh
        have := h.range r' hr' (by omega)
        omega
      · rw [if_neg e, if_pos e']
        intro h1 hh
        have := h.range r hr h1
        omega
      · rw [if_neg e, if_neg e']
        exact h.inj r r' hr hr'
    · intro i hi
      show (st.output.set m ((st.colors.set _ _).getD _ 0)).getD i 0 =
        (st.colors.set _ _).getD (u.find i) 0
      rw [hc (u.find m), if_pos rfl, ho i, hc (u.find i)]
      rcases Nat.lt_succ_iff_lt_or_eq.mp hi with h1 | h1
      · rw [if_neg (by omega), if_neg (Ne.symm (hseen_ne i h1))]
        exact h.out i h1
      · subst h1; rw [if_pos rfl, if_pos rfl]
    · intro i hi
      show 1 < (st.output.set m ((st.colors.set _ _).getD _ 0)).getD i 0 →
        ∃ j, j < i ∧ (st.output.set m ((st.colors.set _ _).getD _ 0)).getD j 0 =
          (st.output.set m ((st.colors.set _ _).getD _ 0)).getD i 0 - 1
      rw [hc (u.find m), if_pos rfl, ho i]
      rcases Nat.lt_succ_iff_lt_or_eq.mp hi with h1 | h1
      · rw [if_neg (by omega)]
        intro hh
        obtain ⟨j, hj, hj2⟩ := h.prev i h1 hh
        refine ⟨j, hj, ?_⟩
        rw [ho j, if_neg (by omega)]; exact hj2
      · subst h1
        rw [if_pos rfl]
        intro hh
        obtain ⟨j, hj, hj2⟩ := h.onto (st.curr_idx - 1) (by omega) (by omega)
        refine ⟨j, hj, ?_⟩
        rw [ho j, if_neg (by omega)]; exact hj2
    · intro k hk1
      show k < st.curr_idx + 1 →
        ∃ i, i < m + 1 ∧ (st.output.set m ((st.colors.set _ _).getD _ 0)).getD i 0 = k
      rw [hc (u.find m), if_pos rfl]
      intro hk2
      by_cases e : k = st.curr_idx
      · refine ⟨m, Nat.lt_succ_self m, ?_⟩
        rw [ho m, if_pos rfl, e]
      · obtain ⟨i, hi, hi2⟩ := h.onto k hk1 (by omega)
        refine ⟨i, Nat.lt_succ_of_lt hi, ?_⟩
        rw [ho i, if_neg (by omega)]; exact hi2
    · show st.curr_idx + 1 =
        (count_below n (fun r => (st.colors.set _ _).getD r 0 ≠ 0) : Nat) + 1
      have := count_below_remove n (u.find m)
        (fun r => (st.colors.set (u.find m) st.curr_idx).getD r 0 ≠ 0)
        (fun r => st.colors.getD r 0 ≠ 0) hr0
        (by show (st.colors.set _ _).getD _ 0 ≠ 0
            rw [hc (u.find m), if_pos rfl]; omega)
        (fun hh => hh hnew)
        (by intro r _ hne
            show (st.colors.set _ _).getD r 0 ≠ 0 ↔ st.colors.getD r 0 ≠ 0
            rw [hc r, if_neg (Ne.symm hne)])
      rw [this, h.card]
      push_cast; rfl
  · rw [label_px_old u st m hnew]
    have ho : ∀ i, (st.output.set m (st.colors.getD (u.find m) 0)).getD i 0 =
        if m = i then st.colors.getD (u.find m) 0 else st.output.getD i 0 := by
      intro i
      rw [getD_set_eq, h.len_output]
      by_cases e : m = i
      · rw [if_pos ⟨e, hm⟩, if_pos e]
      · rw [if_neg (fun hh => e hh.1), if_neg e]
    obtain ⟨i0, hi0, hi0f⟩ := (h.seen (u.find m) hr0).mp hnew
    have hout0 : st.output.getD i0 0 = st.colors.getD (u.find m) 0 := by
      rw [h.out i0 hi0, hi0f]
    refine ⟨h.len_colors, ?_, h.idx_pos, ?_, h.range, h.inj, ?_, ?_, ?_, h.card⟩
    · show (st.output.set _ _).length = n
      rw [List.length_set]; exact h.len_output
    · intro r hr
      rw [h.seen r hr]
      constructor
      · rintro ⟨i, hi, hi2⟩; exact ⟨i, Nat.lt_succ_of_lt hi, hi2⟩
      · rintro ⟨i, hi, hi2⟩
        rcases Nat.lt_succ_iff_lt_or_eq.mp hi with h1 | h1
        · exact ⟨i, h1, hi2⟩
        · subst h1; exact ⟨i0, hi0, hi0f.trans hi2⟩
    · intro i hi
      show (st.output.set m _).getD i 0 = st.colors.getD (u.find i) 0
      rw [ho i]
      rcases Nat.lt_succ_iff_lt_or_eq.mp hi with h1 | h1
      · rw [if_neg (by omega)]; exact h.out i h1
      · subst h1; rw [if_pos rfl]
    · intro i hi
      show 1 < (st.output.set m _).getD i 0 →
        ∃ j, j < i ∧ (st.output.set m _).getD j 0 = (st.output.set m _).getD i 0 - 1
      rw [ho i]
      rcases Nat.lt_succ_iff_lt_or_eq.mp hi with h1 | h1
      · rw [if_neg (by omega)]
        intro hh
        obtain ⟨j, hj, hj2⟩ := h.prev i h1 hh
        refine ⟨j, hj, ?_⟩
        rw [ho j, if_neg (by omega)]; exact hj2
      · subst h1
        rw [if_pos rfl]
        intro hh
        rw [← hout0] at hh
        obtain ⟨j, hj, hj2⟩ := h.prev i0 hi0 hh
        refine ⟨j, by omega, ?_⟩
        rw [ho j, if_neg (by omega), hj2, hout0]
    · intro k hk1 hk2
      obtain ⟨i, hi, hi2⟩ := h.onto k hk1 hk2
      refine ⟨i, Nat.lt_succ_of_lt hi, ?_⟩
      show (st.output.set m _).getD i 0 = k
      rw [ho i, if_neg (by omega)]; exact hi2

theorem LInv.label_fold {u : Universe} {n : Nat} (hf : ∀ i, i < n → u.find i < n) :
    ∀ m, m ≤ n → LInv u n m ((List.range m).foldl (label_px u) (label_init n)) := by
  intro m
  induction m with
  | zero => intro _; exact LInv.at_start u n
  | succ m ih =>
    intro hm
    rw [List.range_succ, List.foldl_append]
    exact (ih (by omega)).label_step_inv hf (by omega)

/-! ## The pipeline of `segment_image` -/

theorem final_universe_eq (sqrt : ℚ → ℚ) (smooth : image ℚ → ℚ → image ℚ)
    (im : image rgb) (sigma c : ℚ) (min_size : Int) :
    final_universe sqrt smooth im sigma c min_size =
      postprocess min_size (graph_universe sqrt smooth im sigma c)
        (sort_edges (image_graph sqrt smooth im sigma)) := rfl

theorem segment_image_eq (sqrt : ℚ → ℚ) (smooth : image ℚ → ℚ → image ℚ)
    (im : image rgb) (sigma c : ℚ) (min_size : Int) :
    segment_image sqrt smooth im sigma c min_size =
      (((List.range (im.width * im.height)).foldl
          (label_px (final_universe sqrt smooth im sigma c min_size))
          (label_init (im.width * im.height))).output,
        (final_universe sqrt smooth im sigma c min_size).num) := by
  unfold segment_image
  simp only [label_loop_eq]
  rfl

theorem image_graph_lt (sqrt : ℚ → ℚ) (smooth : image ℚ → ℚ → image ℚ)
    (im : image rgb) (sigma : ℚ) :
    ∀ e ∈ image_graph sqrt smooth im sigma,
      e.a < im.width * im.height ∧ e.b < im.width * im.height :=
  fun e he => build_graph_lt _ _ _ _ _ _ e he

theorem segment_graph_inv (E : List edge) (n : Nat) (c : ℚ)
    (hE : ∀ e ∈ E, e.a < n ∧ e.b < n) : Inv E n (segment_graph n E c).1 :=
  (Inv.merge_fold (segment_graph_step c) Prod.fst (segment_graph_step_merge c) hE
    (sort_edges E) _ (fun e he => (mem_sort_edges E e).mp he) (create_inv E n)).1

theorem postprocess_inv (E : List edge) (n : Nat) (min_size : Int)
    (hE : ∀ e ∈ E, e.a < n ∧ e.b < n) (u : Universe) (es : List edge)
    (hes : ∀ e ∈ es, e ∈ E) (h : Inv E n u) :
    Inv E n (postprocess min_size u es) ∧ coarsens n u (postprocess min_size u es) ∧
      (postprocess min_size u es).num ≤ u.num :=
  Inv.merge_fold (postprocess_step min_size) id (postprocess_step_merge min_size) hE es u hes h

theorem graph_universe_inv (sqrt : ℚ → ℚ) (smooth : image ℚ → ℚ → image ℚ)
    (im : image rgb) (sigma c : ℚ) :
    Inv (image_graph sqrt smooth im sigma) (im.width * im.height)
      (graph_universe sqrt smooth im sigma c) :=
  segment_graph_inv _ _ c (image_graph_lt sqrt smooth im sigma)

theorem final_universe_inv (sqrt : ℚ → ℚ) (smooth : image ℚ → ℚ → image ℚ)
    (im : image rgb) (sigma c : ℚ) (min_size : Int) :
    Inv (image_graph sqrt smooth im sigma) (im.width * im.height)
      (final_universe sqrt smooth im sigma c min_size) := by
  rw [final_universe_eq]
  exact (postprocess_inv _ _ min_size (image_graph_lt sqrt smooth im sigma) _ _
    (fun e he => (mem_sort_edges _ e).mp he) (graph_universe_inv sqrt smooth im sigma c)).1

/-- The state of the labelling loops at the end satisfies the loop invariant
for all `width * height` pixels. -/
theorem segment_image_linv (sqrt : ℚ → ℚ) (smooth : image ℚ → ℚ → image ℚ)
    (im : image rgb) (sigma c : ℚ) (min_size : Int) :
    ∃ st, LInv (final_universe sqrt smooth im sigma c min_size)
        (im.width * im.height) (im.width * im.height) st ∧
      segment_image sqrt smooth im sigma c min_size =
        (st.output, (final_universe sqrt smooth im sigma c min_size).num) := by
  refine ⟨_, ?_, segment_image_eq sqrt smooth im sigma c min_size⟩
  exact LInv.label_fold (fun i hi =>
    (final_universe_inv sqrt smooth im sigma c min_size).wf.forest.find_lt i hi) _ (le_refl _)

/-- Under the loop invariant at the end, two pixels have the same label
exactly when they resolve to the same root. -/
theorem LInv.label_eq_iff {u : Universe} {n : Nat} {st : label_state}
    (hf : ∀ i, i < n → u.find i < n) (h : LInv u n n st) (p q : Nat)
    (hp : p < n) (hq : q < n) :
    st.output.getD p 0 = st.output.getD q 0 ↔ u.find p = u.find q := by
  rw [h.out p hp, h.out q hq]
  constructor
  · intro e
    exact h.inj _ _ (hf p hp) (hf q hq) ((h.seen _ (hf p hp)).mpr ⟨p, hp, rfl⟩) e
  · intro e; rw [e]

/-- Under the loop invariant at the end, the counter is one more than the
number of roots. -/
theorem LInv.curr_idx_eq {u : Universe} {n : Nat} {st : label_state}
    (hu : Forest u n) (h : LInv u n n st) : st.curr_idx = u.num + 1 := by
  rw [h.card, hu.num_eq]
  congr 2
  apply count_below_congr
  intro r hr
  rw [h.seen r hr]
  constructor
  · rintro ⟨i, hi, rfl⟩; exact hu.find_root i hi
  · intro hroot; exact ⟨r, hr, find_of_root u r hroot⟩

theorem mem_iff_getD (l : List Int) (k : Int) :
    k ∈ l ↔ ∃ i, i < l.length ∧ l.getD i 0 = k := by
  rw [List.mem_iff_getElem]
  constructor
  · rintro ⟨i, hi, e⟩
    exact ⟨i, hi, by rw [List.getD_eq_getElem _ _ hi]; exact e⟩
  · rintro ⟨i, hi, e⟩
    exact ⟨i, hi, by rw [List.getD_eq_getElem _ _ hi] at e; exact e⟩

/-- Under the loop invariant at the end, the labels are exactly the integers
from 1 to the number of roots. -/
theorem LInv.mem_output {u : Universe} {n : Nat} {st : label_state}
    (hu : Forest u n) (h : LInv u n n st) (k : Int) :
    k ∈ st.output ↔ 1 ≤ k ∧ k ≤ u.num := by
  have hidx := h.curr_idx_eq hu
  rw [mem_iff_getD, h.len_output]
  constructor
  · rintro ⟨i, hi, rfl⟩
    rw [h.out i hi]
    have := h.range _ (hu.find_lt i hi) ((h.seen _ (hu.find_lt i hi)).mpr ⟨i, hi, rfl⟩)
    omega
  · rintro ⟨h1, h2⟩
    exact h.onto k h1 (by omega)

/-- A path inside the components of `u` stays inside the component of its
starting point. -/
theorem linked_within {E : List edge} {u : Universe} {p q : Nat} (h : linked E u p q) :
    u.find p = u.find q ∧
      Relation.ReflTransGen
        (fun s t => adjacent E s t ∧ u.find s = u.find p ∧ u.find t = u.find p) p q := by
  induction h with
  | refl => exact ⟨rfl, Relation.ReflTransGen.refl⟩
  | tail _ hbc ih =>
    refine ⟨ih.1.trans hbc.2, Relation.ReflTransGen.tail ih.2 ⟨hbc.1, ih.1.symm, ?_⟩⟩
    exact hbc.2.symm.trans ih.1.symm

theorem getD_append_left (l : List Int) (a : Int) (i : Nat) (hi : i < l.length) :
    (l ++ [a]).getD i 0 = l.getD i 0 := by
  rw [List.getD_eq_getElem _ _ (by rw [List.length_append]; omega),
    List.getD_eq_getElem _ _ hi, List.getElem_append_left hi]

theorem getD_append_length (l : List Int) (a : Int) :
    (l ++ [a]).getD l.length 0 = a := by
  rw [List.getD_eq_getElem _ _ (by rw [List.length_append]; simp)]
  simp

/-- The number of occurrences of `k` in a buffer is the number of positions
that hold `k`. -/
theorem count_eq_count_below (l : List Int) (k : Int) :
    l.count k = count_below l.length (fun i => l.getD i 0 = k) := by
  induction l using List.reverseRecOn with
  | nil => rfl
  | append_singleton l a ih =>
    rw [List.count_append, List.length_append, List.length_singleton, count_below_succ, ih,
      getD_append_length]
    congr 1
    · apply count_below_congr
      intro i hi
      rw [getD_append_left l a i hi]
    · by_cases h : a = k
      · simp [h]
      · simp [List.count_singleton, h]

theorem class_count_mono {n : Nat} {u v : Universe} (hc : coarsens n u v) (i : Nat)
    (hi : i < n) :
    count_below n (fun j => u.find j = u.find i) ≤
      count_below n (fun j => v.find j = v.find i) :=
  count_below_mono n _ _ (fun j hj h => hc j i hj hi h)

/-- After the post-processing loop over `es`, the endpoints of every edge of
`es` are in one component, or both are in components of at least `min_size`
nodes. -/
theorem postprocess_floor {E : List edge} {n : Nat} (min_size : Int)
    (hE : ∀ e ∈ E, e.a < n ∧ e.b < n) :
    ∀ (es : List edge) (u : Universe), (∀ e ∈ es, e ∈ E) → Inv E n u →
      ∀ e ∈ es,
        (postprocess min_size u es).find e.a = (postprocess min_size u es).find e.b ∨
        (min_size ≤ (count_below n (fun j => (postprocess min_size u es).find j =
            (postprocess min_size u es).find e.a) : Nat) ∧
          min_size ≤ (count_below n (fun j => (postprocess min_size u es).find j =
            (postprocess min_size u es).find e.b) : Nat)) := by
  intro es
  induction es with
  | nil => intro u _ _ e he; exact absurd he (List.not_mem_nil e)
  | cons e0 es ih =>
    intro u hes h e he
    have he0 : e0 ∈ E := hes e0 (List.mem_cons_self e0 es)
    have hes' : ∀ e ∈ es, e ∈ E := fun e' he' => hes e' (List.mem_cons_of_mem e0 he')
    obtain ⟨h1, h2, h3⟩ := h.merge_step_inv hE he0 (postprocess_step_merge min_size u e0)
    obtain ⟨_, h5, _⟩ := postprocess_inv E n min_size hE _ es hes' h1
    have hpp : postprocess min_size u (e0 :: es) =
        postprocess min_size (postprocess_step min_size u e0) es := rfl
    rw [hpp]
    rcases List.mem_cons.mp he with rfl | he'
    · have ha := (hE e he0).1
      have hb := (hE e he0).2
      by_cases hcond : u.find e.a ≠ u.find e.b ∧
          ((u.size (u.find e.a) : Int) < min_size ∨ (u.size (u.find e.b) : Int) < min_size)
      · rcases h3 with h3 | ⟨_, h3⟩
        · exfalso
          have hj : postprocess_step min_size u e = u.join (u.find e.a) (u.find e.b) := by
            unfold postprocess_step
            simp only [if_pos hcond]
          have hf := h.wf.forest
          obtain ⟨_, hnum, _⟩ := h.wf.join_spec (hf.find_lt _ ha) (hf.find_lt _ hb)
            (hf.find_root _ ha) (hf.find_root _ hb) hcond.1
          rw [← hj, h3] at hnum
          omega
        · exact Or.inl (h5 _ _ ha hb h3)
      · have hsame : postprocess_step min_size u e = u := by
          unfold postprocess_step
          simp only [if_neg hcond]
        by_cases hab : u.find e.a = u.find e.b
        · exact Or.inl (h5 _ _ ha hb (by rw [hsame]; exact hab))
        · right
          have hsz : min_size ≤ (u.size (u.find e.a) : Int) ∧
              min_size ≤ (u.size (u.find e.b) : Int) := by
            by_contra hh
            apply hcond
            refine ⟨hab, ?_⟩
            by_contra hh2
            apply hh
            constructor
            · by_contra h6; exact hh2 (Or.inl (by omega))
            · by_contra h6; exact hh2 (Or.inr (by omega))
          have hf := h.wf.forest
          have hco : coarsens n u (postprocess min_size (postprocess_step min_size u e) es) :=
            coarsens_trans h2 h5
          have e1 : ∀ i, i < n → u.size (u.find i) =
              count_below n (fun j => u.find j = u.find i) := fun i hi =>
            h.wf.size_eq _ (hf.find_lt i hi) (hf.find_root i hi)
          have m1 := class_count_mono hco e.a ha
          have m2 := class_count_mono hco e.b hb
          rw [e1 e.a ha, e1 e.b hb] at hsz
          constructor
          · have := hsz.1; omega
          · have := hsz.2; omega
    · exact ih _ hes' h1 e he'

/-- In a well-formed universe all of whose nodes resolve to one root, the
component count is 1. -/
theorem num_eq_one_of_all_same {u : Universe} {n p : Nat} (hu : Forest u n) (hp : p < n)
    (h : ∀ i, i < n → u.find i = u.find p) : u.num = 1 := by
  rw [hu.num_eq]
  rw [count_below_congr n _ (fun r => r = u.find p) (fun r hr => by
    constructor
    · intro hroot
      have := h r hr
      rw [find_of_root u r hroot] at this
      exact this
    · intro e; rw [e]; exact hu.find_root p hp)]
  rw [count_below_single n _ (hu.find_lt p hp)]
  rfl

/-- A final component with fewer than `min_size` pixels is the whole image:
no generated edge leaves it, and the generated graph is connected. -/
theorem small_class_whole (sqrt : ℚ → ℚ) (smooth : image ℚ → ℚ → image ℚ)
    (im : image rgb) (sigma c : ℚ) (min_size : Int) (p : Nat)
    (hp : p < im.width * im.height)
    (hsmall : (count_below (im.width * im.height)
      (fun j => (final_universe sqrt smooth im sigma c min_size).find j =
        (final_universe sqrt smooth im sigma c min_size).find p) : Nat) < min_size) :
    ∀ i, i < im.width * im.height →
      (final_universe sqrt smooth im sigma c min_size).find i =
        (final_universe sqrt smooth im sigma c min_size).find p := by
  have hfloor := postprocess_floor min_size (image_graph_lt sqrt smooth im sigma)
    (sort_edges (image_graph sqrt smooth im sigma)) (graph_universe sqrt smooth im sigma c)
    (fun e he => (mem_sort_edges _ e).mp he) (graph_universe_inv sqrt smooth im sigma c)
  rw [← final_universe_eq sqrt smooth im sigma c min_size] at hfloor
  generalize final_universe sqrt smooth im sigma c min_size = v at hfloor hsmall ⊢
  have hedge : ∀ e ∈ image_graph sqrt smooth im sigma,
      (v.find e.a = v.find p ↔ v.find e.b = v.find p) := by
    intro e he
    rcases hfloor e ((mem_sort_edges _ e).mpr he) with h | ⟨h1, h2⟩
    · rw [h]
    · constructor
      · intro h
        rw [h] at h1
        omega
      · intro h
        rw [h] at h2
        omega
  have hall := build_graph_connected sqrt _ _ _ im.width im.height
    (fun i => (v.find i = v.find p ↔ v.find 0 = v.find p))
    (fun e he => by
      have := hedge e he
      show (v.find e.a = v.find p ↔ v.find 0 = v.find p) ↔
        (v.find e.b = v.find p ↔ v.find 0 = v.find p)
      rw [this])
    Iff.rfl
  have h0 : v.find 0 = v.find p := (hall p hp).mp rfl
  intro i hi
  exact (hall i hi).mpr h0

theorem join_find_eq {E : List edge} {n : Nat} {u : Universe} {e : edge}
    (hE : ∀ e ∈ E, e.a < n ∧ e.b < n) (h : Inv E n u) (he : e ∈ E)
    (hne : u.find e.a ≠ u.find e.b) :
    (u.join (u.find e.a) (u.find e.b)).find e.a =
      (u.join (u.find e.a) (u.find e.b)).find e.b := by
  have ha := (hE e he).1
  have hb := (hE e he).2
  have hf := h.wf.forest
  obtain ⟨_, _, s, _, hfind⟩ := h.wf.join_spec (hf.find_lt _ ha) (hf.find_lt _ hb)
    (hf.find_root _ ha) (hf.find_root _ hb) hne
  rw [hfind _ ha, hfind _ hb, if_pos (Or.inl rfl), if_pos (Or.inr rfl)]

theorem threshold_nonneg (u : Universe) (idiff : List ℚ) (c : ℚ) (r : Nat)
    (hc : 0 ≤ c) (hd : ∀ r, 0 ≤ idiff.getD r 0) : 0 ≤ threshold u idiff c r := by
  unfold threshold
  exact add_nonneg (hd r) (div_nonneg hc (Nat.cast_nonneg _))

/-- With `c >= 0`, an edge of weight 0 whose endpoints are in different
components is merged by the adaptive loop, and the internal differences stay
non-negative. -/
theorem segment_graph_step_zero {E : List edge} {n : Nat} (c : ℚ) (hc : 0 ≤ c)
    (hE : ∀ e ∈ E, e.a < n ∧ e.b < n) (st : Universe × List ℚ) (e : edge)
    (h : Inv E n st.1) (he : e ∈ E) (hw : e.w = 0) (hd : ∀ r, 0 ≤ st.2.getD r 0) :
    (segment_graph_step c st e).1.find e.a = (segment_graph_step c st e).1.find e.b ∧
      ∀ r, 0 ≤ (segment_graph_step c st e).2.getD r 0 := by
  unfold segment_graph_step
  by_cases h1 : st.1.find e.a ≠ st.1.find e.b
  · have h2 : e.w ≤ min (threshold st.1 st.2 c (st.1.find e.a))
        (threshold st.1 st.2 c (st.1.find e.b)) := by
      rw [hw]
      exact le_min (threshold_nonneg _ _ _ _ hc hd) (threshold_nonneg _ _ _ _ hc hd)
    simp only [if_pos h1, if_pos h2]
    refine ⟨join_find_eq hE h he h1, ?_⟩
    intro r
    rw [getD_set_eq, hw]
    split
    · exact le_refl _
    · exact hd r
  · simp only [if_neg h1]
    exact ⟨not_not.mp h1, hd⟩

/-- With `c >= 0`, after the adaptive loop over edges of weight 0 the
endpoints of each of them are in one component. -/
theorem segment_graph_fold_zero {E : List edge} {n : Nat} (c : ℚ) (hc : 0 ≤ c)
    (hE : ∀ e ∈ E, e.a < n ∧ e.b < n) :
    ∀ (es : List edge) (st : Universe × List ℚ), (∀ e ∈ es, e ∈ E ∧ e.w = 0) →
      Inv E n st.1 → (∀ r, 0 ≤ st.2.getD r 0) →
      ∀ e ∈ es, (es.foldl (segment_graph_step c) st).1.find e.a =
        (es.foldl (segment_graph_step c) st).1.find e.b := by
  intro es
  induction es with
  | nil => intro st _ _ _ e he; exact absurd he (List.not_mem_nil e)
  | cons e0 es ih =>
    intro st hes h hd e he
    have he0 := hes e0 (List.mem_cons_self e0 es)
    have hes' : ∀ e ∈ es, e ∈ E ∧ e.w = 0 := fun e' he' => hes e' (List.mem_cons_of_mem e0 he')
    obtain ⟨h1, _, _⟩ := h.merge_step_inv hE he0.1 (segment_graph_step_merge c st e0)
    obtain ⟨h2, h3⟩ := segment_graph_step_zero c hc hE st e0 h he0.1 he0.2 hd
    rw [List.foldl_cons]
    rcases List.mem_cons.mp he with rfl | he'
    · obtain ⟨_, h5, _⟩ := Inv.merge_fold (segment_graph_step c) Prod.fst
        (segment_graph_step_merge c) hE es (segment_graph_step c st e)
        (fun e' he' => (hes' e' he').1) h1
      exact h5 _ _ (hE e he0.1).1 (hE e he0.1).2 h2
    · exact ih _ hes' h1 h3 e he'

theorem replicate_getD_nonneg (n r : Nat) : 0 ≤ (List.replicate n (0 : ℚ)).getD r 0 := by
  by_cases h : r < n
  · rw [replicate_getD n r 0 h]
  · rw [List.getD_eq_default _ _ (by rw [List.length_replicate]; omega)]

/-- The edges generated for an image whose smoothed samples are the same at
every pixel all have the weight `sqrt 0`. -/
theorem build_graph_uniform (sqrt : ℚ → ℚ) (r g b : image ℚ) (W H : Nat) (cr cg cb : ℚ)
    (hr : ∀ x y, x < W → y < H → imRef r x y = cr)
    (hg : ∀ x y, x < W → y < H → imRef g x y = cg)
    (hb : ∀ x y, x < W → y < H → imRef b x y = cb) :
    ∀ e ∈ build_graph sqrt r g b W H, e.w = sqrt 0 := by
  intro e he
  rw [mem_build_graph] at he
  obtain ⟨y, hy, x, hx, he⟩ := he
  have key : ∀ x' y', x' < W → y' < H → diff sqrt r g b x y x' y' = sqrt 0 := by
    intro x' y' hx' hy'
    unfold diff square
    rw [hr x y hx hy, hg x y hx hy, hb x y hx hy, hr x' y' hx' hy', hg x' y' hx' hy',
      hb x' y' hx' hy']
    simp
  rw [mem_pixel_edges] at he
  rcases he with ⟨h1, rfl⟩ | ⟨h1, rfl⟩ | ⟨h1, h2, rfl⟩ | ⟨h1, h2, rfl⟩
  · exact key _ _ (by omega) hy
  · exact key _ _ hx (by omega)
  · exact key _ _ (by omega) (by omega)
  · exact key _ _ (by omega) (by omega)

/-! ## The two-block scenario -/

theorem diff_eq_colour_dist (sqrt : ℚ → ℚ) (smooth : image ℚ → ℚ → image ℚ)
    (im : image rgb) (sigma : ℚ)
    (hsm : ∀ ch x y, imRef (smooth ch sigma) x y = imRef ch x y) (x1 y1 x2 y2 : Nat) :
    diff sqrt (smooth (channel rgb.r im) sigma) (smooth (channel rgb.g im) sigma)
        (smooth (channel rgb.b im) sigma) x1 y1 x2 y2 =
      colour_dist sqrt (imRef im x1 y1) (imRef im x2 y2) := by
  unfold diff colour_dist
  simp only [hsm]
  rfl

theorem colour_dist_self (sqrt : ℚ → ℚ) (hsqrt : sqrt 0 = 0) (A : rgb) :
    colour_dist sqrt A A = 0 := by
  unfold colour_dist square
  simp [hsqrt]

theorem two_block_graph (sqrt : ℚ → ℚ) (smooth : image ℚ → ℚ → image ℚ)
    (im : image rgb) (sigma : ℚ) (A B : rgb)
    (hW : im.width = 4) (hH : im.height = 2)
    (hA : ∀ x y, x < 2 → y < 2 → imRef im x y = A)
    (hB : ∀ x y, 2 ≤ x → x < 4 → y < 2 → imRef im x y = B)
    (hsm : ∀ ch x y, imRef (smooth ch sigma) x y = imRef ch x y)
    (hsqrt : sqrt 0 = 0) :
    image_graph sqrt smooth im sigma = two_block_edges (colour_dist sqrt A B) := by
  have h00 := hA 0 0 (by decide) (by decide)
  have h10 := hA 1 0 (by decide) (by decide)
  have h01 := hA 0 1 (by decide) (by decide)
  have h11 := hA 1 1 (by decide) (by decide)
  have h20 := hB 2 0 (by decide) (by decide) (by decide)
  have h30 := hB 3 0 (by decide) (by decide) (by decide)
  have h21 := hB 2 1 (by decide) (by decide) (by decide)
  have h31 := hB 3 1 (by decide) (by decide) (by decide)
  unfold image_graph
  rw [hW, hH]
  have e : ∀ (r g b : image ℚ), build_graph sqrt r g b 4 2 =
      [⟨diff sqrt r g b 0 0 1 0, 0, 1⟩, ⟨diff sqrt r g b 0 0 0 1, 0, 4⟩,
       ⟨diff sqrt r g b 0 0 1 1, 0, 5⟩, ⟨diff sqrt r g b 1 0 2 0, 1, 2⟩,
       ⟨diff sqrt r g b 1 0 1 1, 1, 5⟩, ⟨diff sqrt r g b 1 0 2 1, 1, 6⟩,
       ⟨diff sqrt r g b 2 0 3 0, 2, 3⟩, ⟨diff sqrt r g b 2 0 2 1, 2, 6⟩,
       ⟨diff sqrt r g b 2 0 3 1, 2, 7⟩, ⟨diff sqrt r g b 3 0 3 1, 3, 7⟩,
       ⟨diff sqrt r g b 0 1 1 1, 4, 5⟩, ⟨diff sqrt r g b 0 1 1 0, 4, 1⟩,
       ⟨diff sqrt r g b 1 1 2 1, 5, 6⟩, ⟨diff sqrt r g b 1 1 2 0, 5, 2⟩,
       ⟨diff sqrt r g b 2 1 3 1, 6, 7⟩, ⟨diff sqrt r g b 2 1 3 0, 6, 3⟩] := fun _ _ _ => rfl
  rw [e]
  simp only [diff_eq_colour_dist sqrt smooth im sigma hsm, h00, h10, h01, h11, h20, h30,
    h21, h31, colour_dist_self sqrt hsqrt]
  rfl

theorem two_block_sorted (d : ℚ) (hd : 0 < d) :
    sort_edges (two_block_edges d) = two_block_zero ++ two_block_cross d := by
  have h1 : ¬ d ≤ 0 := not_le.mpr hd
  simp [sort_edges, two_block_edges, two_block_zero, two_block_cross, List.insertionSort,
    List.orderedInsert, h1, hd.le]

theorem segment_graph_step_always (c : ℚ) (st : Universe × List ℚ) (e : edge)
    (h : e.w ≤ min (threshold st.1 st.2 c (st.1.find e.a))
      (threshold st.1 st.2 c (st.1.find e.b))) :
    segment_graph_step c st e = merge_always_step st e := by
  unfold segment_graph_step merge_always_step
  simp only [if_pos h]

theorem segment_graph_step_skip (c : ℚ) (st : Universe × List ℚ) (e : edge)
    (h : st.1.find e.a = st.1.find e.b ∨
      ¬ e.w ≤ min (threshold st.1 st.2 c (st.1.find e.a))
        (threshold st.1 st.2 c (st.1.find e.b))) :
    segment_graph_step c st e = st := by
  unfold segment_graph_step
  rcases h with h | h
  · simp only [h, ne_eq, not_true_eq_false, if_false]
  · simp only [if_neg h, ite_self]

theorem merge_always_step_nonneg (st : Universe × List ℚ) (e : edge) (hw : 0 ≤ e.w)
    (hd : ∀ r, 0 ≤ st.2.getD r 0) : ∀ r, 0 ≤ (merge_always_step st e).2.getD r 0 := by
  unfold merge_always_step
  by_cases h1 : st.1.find e.a ≠ st.1.find e.b
  · simp only [if_pos h1]
    intro r
    rw [getD_set_eq]
    split
    · exact hw
    · exact hd r
  · simp only [if_neg h1]
    exact hd

theorem segment_graph_fold_always (c : ℚ) (hc : 0 ≤ c) :
    ∀ (es : List edge) (st : Universe × List ℚ), (∀ e ∈ es, e.w = 0) →
      (∀ r, 0 ≤ st.2.getD r 0) →
      es.foldl (segment_graph_step c) st = es.foldl merge_always_step st := by
  intro es
  induction es with
  | nil => intro _ _ _; rfl
  | cons e es ih =>
    intro st hes hd
    have hw := hes e (List.mem_cons_self e es)
    have h1 : segment_graph_step c st e = merge_always_step st e := by
      apply segment_graph_step_always
      rw [hw]
      exact le_min (threshold_nonneg _ _ _ _ hc hd) (threshold_nonneg _ _ _ _ hc hd)
    rw [List.foldl_cons, List.foldl_cons, h1]
    exact ih _ (fun e' he' => hes e' (List.mem_cons_of_mem e he'))
      (merge_always_step_nonneg st e (by rw [hw]) hd)

theorem two_block_zero_fold :
    two_block_zero.foldl merge_always_step (Universe.create 8, List.replicate 8 0) =
      (two_block_universe, List.replicate 8 0) := by
  decide!

theorem two_block_after_zero (c : ℚ) (hc : 0 ≤ c) :
    two_block_zero.foldl (segment_graph_step c) (Universe.create 8, List.replicate 8 0) =
      (two_block_universe, List.replicate 8 0) := by
  have hz : ∀ e ∈ two_block_zero, e.w = 0 := by simp [two_block_zero]
  rw [segment_graph_fold_always c hc two_block_zero
    (Universe.create 8, List.replicate 8 0) hz (replicate_getD_nonneg 8)]
  exact two_block_zero_fold

theorem two_block_cross_skip (c d : ℚ) (hcd : c / 4 < d) :
    (two_block_cross d).foldl (segment_graph_step c) (two_block_universe, List.replicate 8 0) =
      (two_block_universe, List.replicate 8 0) := by
  have hskip : ∀ e : edge, e.w = d → two_block_universe.find e.a = 1 →
      two_block_universe.find e.b = 3 →
      segment_graph_step c (two_block_universe, List.replicate 8 0) e =
        (two_block_universe, List.replicate 8 0) := by
    intro e hw ha hb
    apply segment_graph_step_skip
    right
    show ¬ e.w ≤ min (threshold two_block_universe (List.replicate 8 0) c
        (two_block_universe.find e.a))
      (threshold two_block_universe (List.replicate 8 0) c (two_block_universe.find e.b))
    rw [ha, hb, hw]
    have t1 : threshold two_block_universe (List.replicate 8 0) c 1 = 0 + c / ((4 : Nat) : ℚ) :=
      rfl
    rw [t1]
    intro hle
    have := (le_min_iff.mp hle).1
    push_cast at this
    linarith
  unfold two_block_cross
  simp only [List.foldl_cons, List.foldl_nil]
  rw [hskip ⟨d, 1, 2⟩ rfl rfl rfl, hskip ⟨d, 1, 6⟩ rfl rfl rfl, hskip ⟨d, 5, 6⟩ rfl rfl rfl,
    hskip ⟨d, 5, 2⟩ rfl rfl rfl]

theorem postprocess_step_id {E : List edge} {n : Nat} {u : Universe} (min_size : Int)
    (hms : min_size ≤ 1) (hE : ∀ e ∈ E, e.a < n ∧ e.b < n) (h : Inv E n u) (e : edge)
    (he : e ∈ E) : postprocess_step min_size u e = u := by
  have hf := h.wf.forest
  have hsz : ∀ i, i < n → 1 ≤ u.size (u.find i) := by
    intro i hi
    unfold Universe.size
    rw [h.wf.size_eq _ (hf.find_lt i hi) (hf.find_root i hi)]
    exact count_below_pos n (u.find i) _ (hf.find_lt i hi) (hf.find_find i hi)
  have h1 := hsz e.a (hE e he).1
  have h2 := hsz e.b (hE e he).2
  unfold postprocess_step
  rw [if_neg]
  rintro ⟨_, h3 | h3⟩ <;> omega

theorem postprocess_id {E : List edge} {n : Nat} (min_size : Int) (hms : min_size ≤ 1)
    (hE : ∀ e ∈ E, e.a < n ∧ e.b < n) {u : Universe} (h : Inv E n u) :
    ∀ es : List edge, (∀ e ∈ es, e ∈ E) → postprocess min_size u es = u := by
  intro es
  induction es with
  | nil => intro _; rfl
  | cons e es ih =>
    intro hes
    show postprocess min_size (postprocess_step min_size u e) es = u
    rw [postprocess_step_id min_size hms hE h e (hes e (List.mem_cons_self e es))]
    exact ih (fun e' he' => hes e' (List.mem_cons_of_mem e he'))

theorem two_block_labels :
    (label_loop two_block_universe 4 2).output = [1, 1, 2, 2, 1, 1, 2, 2] := by
  decide

theorem graph_universe_eq (sqrt : ℚ → ℚ) (smooth : image ℚ → ℚ → image ℚ)
    (im : image rgb) (sigma c : ℚ) :
    graph_universe sqrt smooth im sigma c =
      ((sort_edges (image_graph sqrt smooth im sigma)).foldl (segment_graph_step c)
        (Universe.create (im.width * im.height),
          List.replicate (im.width * im.height) 0)).1 := rfl

theorem final_universe_of_min_size_le_one (sqrt : ℚ → ℚ) (smooth : image ℚ → ℚ → image ℚ)
    (im : image rgb) (sigma c : ℚ) (min_size : Int) (hms : min_size ≤ 1) :
    final_universe sqrt smooth im sigma c min_size = graph_universe sqrt smooth im sigma c := by
  rw [final_universe_eq]
  exact postprocess_id min_size hms (image_graph_lt sqrt smooth im sigma)
    (graph_universe_inv sqrt smooth im sigma c) _ (fun e he => (mem_sort_edges _ e).mp he)

theorem two_block_graph_universe (sqrt : ℚ → ℚ) (smooth : image ℚ → ℚ → image ℚ)
    (im : image rgb) (sigma c : ℚ) (A B : rgb)
    (hW : im.width = 4) (hH : im.height = 2)
    (hA : ∀ x y, x < 2 → y < 2 → imRef im x y = A)
    (hB : ∀ x y, 2 ≤ x → x < 4 → y < 2 → imRef im x y = B)
    (hsm : ∀ ch x y, imRef (smooth ch sigma) x y = imRef ch x y)
    (hsqrt : sqrt 0 = 0) (hc : 0 ≤ c) (hd : 0 < colour_dist sqrt A B)
    (hcd : c / 4 < colour_dist sqrt A B) :
    graph_universe sqrt smooth im sigma c = two_block_universe := by
  have h8 : (4 * 2 : Nat) = 8 := rfl
  rw [graph_universe_eq, two_block_graph sqrt smooth im sigma A B hW hH hA hB hsm hsqrt,
    two_block_sorted _ hd, hW, hH, h8, List.foldl_append, two_block_after_zero c hc,
    two_block_cross_skip c _ hcd]

theorem two_block_cross_merge (c d : ℚ) (hcd : d ≤ c / 4) :
    (two_block_cross d).foldl (segment_graph_step c) (two_block_universe, List.replicate 8 0) =
      two_block_merged d := by
  have h1 : segment_graph_step c (two_block_universe, List.replicate 8 0) ⟨d, 1, 2⟩ =
      two_block_merged d := by
    rw [segment_graph_step_always]
    · rfl
    · show d ≤ min (threshold two_block_universe (List.replicate 8 0) c 1)
        (threshold two_block_universe (List.replicate 8 0) c 3)
      have t1 : threshold two_block_universe (List.replicate 8 0) c 1 =
          0 + c / ((4 : Nat) : ℚ) := rfl
      have t3 : threshold two_block_universe (List.replicate 8 0) c 3 =
          0 + c / ((4 : Nat) : ℚ) := rfl
      rw [t1, t3]
      push_cast
      rw [min_self]
      linarith
  have hskip : ∀ e : edge, (two_block_merged d).1.find e.a = (two_block_merged d).1.find e.b →
      segment_graph_step c (two_block_merged d) e = two_block_merged d :=
    fun e he => segment_graph_step_skip c _ e (Or.inl he)
  unfold two_block_cross
  simp only [List.foldl_cons, List.foldl_nil]
  rw [h1, hskip ⟨d, 1, 6⟩ rfl, hskip ⟨d, 5, 6⟩ rfl, hskip ⟨d, 5, 2⟩ rfl]

/-- On the two-block image with `min_size = 1` the component count is 1 when
the colour distance is at most `c / 4` and 2 otherwise. -/
theorem two_block_num_ccs (sqrt : ℚ → ℚ) (smooth : image ℚ → ℚ → image ℚ)
    (im : image rgb) (c : ℚ) (A B : rgb)
    (hW : im.width = 4) (hH : im.height = 2)
    (hA : ∀ x y, x < 2 → y < 2 → imRef im x y = A)
    (hB : ∀ x y, 2 ≤ x → x < 4 → y < 2 → imRef im x y = B)
    (hsm : ∀ ch x y, imRef (smooth ch 0) x y = imRef ch x y)
    (hsqrt : sqrt 0 = 0) (hd : 0 < colour_dist sqrt A B) (hc : 0 < c) :
    (segment_image sqrt smooth im 0 c 1).2 =
      if colour_dist sqrt A B ≤ c / 4 then 1 else 2 := by
  have h8 : (4 * 2 : Nat) = 8 := rfl
  show (final_universe sqrt smooth im 0 c 1).num = _
  rw [final_universe_of_min_size_le_one sqrt smooth im 0 c 1 (le_refl _)]
  by_cases hcd : colour_dist sqrt A B ≤ c / 4
  · rw [if_pos hcd, graph_universe_eq,
      two_block_graph sqrt smooth im 0 A B hW hH hA hB hsm hsqrt,
      two_block_sorted _ hd, hW, hH, h8, List.foldl_append, two_block_after_zero c hc.le,
      two_block_cross_merge c _ hcd]
    rfl
  · rw [if_neg hcd, two_block_graph_universe sqrt smooth im 0 c A B hW hH hA hB hsm hsqrt hc.le
      hd (not_le.mp hcd)]
    rfl

/-! ## The calls of the post-processing loop -/

theorem postprocess_cons (min_size : Int) (u : Universe) (e : edge) (es : List edge) :
    postprocess min_size u (e :: es) = postprocess min_size (postprocess_step min_size u e) es :=
  rfl

/-- A loop over edges none of which meets the join condition makes no call
and leaves the universe as it is. -/
theorem postprocess_no_join (min_size : Int) (u : Universe) :
    ∀ es : List edge,
      (∀ e ∈ es, ¬ (u.find e.a ≠ u.find e.b ∧
        ((u.size (u.find e.a) : Int) < min_size ∨ (u.size (u.find e.b) : Int) < min_size))) →
      postprocess min_size u es = u ∧ postprocess_calls min_size u es = [] := by
  intro es
  induction es with
  | nil => intro _; exact ⟨rfl, rfl⟩
  | cons e es ih =>
    intro h
    have he := h e (List.mem_cons_self e es)
    have hrest := ih (fun e' he' => h e' (List.mem_cons_of_mem e he'))
    have hstep : postprocess_step min_size u e = u := by
      unfold postprocess_step
      simp only [if_neg he]
    constructor
    · rw [postprocess_cons, hstep]; exact hrest.1
    · unfold postprocess_calls
      rw [if_neg he]; exact hrest.2

/-- The stored size of the root of every node of a well-formed universe is at
least 1. -/
theorem root_size_pos {E : List edge} {n : Nat} {u : Universe} (h : Inv E n u) (i : Nat)
    (hi : i < n) : 1 ≤ u.size (u.find i) := by
  have hf := h.wf.forest
  unfold Universe.size
  rw [h.wf.size_eq _ (hf.find_lt i hi) (hf.find_root i hi)]
  exact count_below_pos n (u.find i) _ (hf.find_lt i hi) (hf.find_find i hi)

/-- Every call of the post-processing loop joins two distinct roots and lowers
the count by one, and the final count is the initial count minus the number
of calls. -/
theorem postprocess_calls_spec {E : List edge} {n : Nat} (min_size : Int)
    (hE : ∀ e ∈ E, e.a < n ∧ e.b < n) :
    ∀ (es : List edge) (u : Universe), (∀ e ∈ es, e ∈ E) → Inv E n u →
      (∀ call ∈ postprocess_calls min_size u es,
        call.1.find call.2.1 = call.2.1 ∧ call.1.find call.2.2 = call.2.2 ∧
          call.2.1 ≠ call.2.2 ∧
          (call.1.join call.2.1 call.2.2).num_sets = call.1.num_sets - 1) ∧
      (postprocess min_size u es).num_sets =
        u.num_sets - ((postprocess_calls min_size u es).length : Int) := by
  intro es
  induction es with
  | nil =>
    intro u _ _
    refine ⟨fun call hc => absurd hc (List.not_mem_nil call), ?_⟩
    show u.num_sets = u.num_sets - ((0 : Nat) : Int)
    simp
  | cons e es ih =>
    intro u hes h
    have he : e ∈ E := hes e (List.mem_cons_self e es)
    have hes' : ∀ e' ∈ es, e' ∈ E := fun e' he' => hes e' (List.mem_cons_of_mem e he')
    have ha := (hE e he).1
    have hb := (hE e he).2
    have hf := h.wf.forest
    by_cases hcond : u.find e.a ≠ u.find e.b ∧
        ((u.size (u.find e.a) : Int) < min_size ∨ (u.size (u.find e.b) : Int) < min_size)
    · have hstep : postprocess_step min_size u e = u.join (u.find e.a) (u.find e.b) := by
        unfold postprocess_step
        simp only [if_pos hcond]
      have hcalls : postprocess_calls min_size u (e :: es) =
          (u, u.find e.a, u.find e.b) ::
            postprocess_calls min_size (u.join (u.find e.a) (u.find e.b)) es := by
        show (if _ then _ else _) = _
        rw [if_pos hcond]
      obtain ⟨_, hnum, _⟩ := h.wf.join_spec (hf.find_lt _ ha) (hf.find_lt _ hb)
        (hf.find_root _ ha) (hf.find_root _ hb) hcond.1
      obtain ⟨hinv, _, _⟩ := h.merge_step_inv hE he (Or.inr ⟨hcond.1, rfl⟩)
      obtain ⟨ih1, ih2⟩ := ih _ hes' hinv
      rw [postprocess_cons, hstep, hcalls]
      constructor
      · intro call hc
        rcases List.mem_cons.mp hc with rfl | hc'
        · exact ⟨hf.find_find _ ha, hf.find_find _ hb, hcond.1, hnum⟩
        · exact ih1 call hc'
      · rw [ih2, List.length_cons]
        show _ = u.num - _
        have : (u.join (u.find e.a) (u.find e.b)).num_sets = u.num - 1 := hnum
        rw [this]
        push_cast
        omega
    · have hstep : postprocess_step min_size u e = u := by
        unfold postprocess_step
        simp only [if_neg hcond]
      have hcalls : postprocess_calls min_size u (e :: es) =
          postprocess_calls min_size u es := by
        show (if _ then _ else _) = _
        rw [if_neg hcond]
      rw [postprocess_cons, hstep, hcalls]
      exact ih u hes' h

/-- In the universe left by the post-processing loop no generated edge meets
the join condition. -/
theorem final_universe_no_join (sqrt : ℚ → ℚ) (smooth : image ℚ → ℚ → image ℚ)
    (im : image rgb) (sigma c : ℚ) (min_size : Int) :
    ∀ e ∈ sort_edges (image_graph sqrt smooth im sigma),
      ¬ ((final_universe sqrt smooth im sigma c min_size).find e.a ≠
          (final_universe sqrt smooth im sigma c min_size).find e.b ∧
        (((final_universe sqrt smooth im sigma c min_size).size
            ((final_universe sqrt smooth im sigma c min_size).find e.a) : Int) < min_size ∨
          ((final_universe sqrt smooth im sigma c min_size).size
            ((final_universe sqrt smooth im sigma c min_size).find e.b) : Int) < min_size)) := by
  have hE := image_graph_lt sqrt smooth im sigma
  have hfloor := postprocess_floor min_size hE
    (sort_edges (image_graph sqrt smooth im sigma)) (graph_universe sqrt smooth im sigma c)
    (fun e he => (mem_sort_edges _ e).mp he) (graph_universe_inv sqrt smooth im sigma c)
  rw [← final_universe_eq sqrt smooth im sigma c min_size] at hfloor
  have hinv := final_universe_inv sqrt smooth im sigma c min_size
  have hf := hinv.wf.forest
  intro e he
  have hmem := (mem_sort_edges _ e).mp he
  have ha := (hE e hmem).1
  have hb := (hE e hmem).2
  have sa : (final_universe sqrt smooth im sigma c min_size).size
      ((final_universe sqrt smooth im sigma c min_size).find e.a) = _ :=
    hinv.wf.size_eq _ (hf.find_lt _ ha) (hf.find_root _ ha)
  have sb : (final_universe sqrt smooth im sigma c min_size).size
      ((final_universe sqrt smooth im sigma c min_size).find e.b) = _ :=
    hinv.wf.size_eq _ (hf.find_lt _ hb) (hf.find_root _ hb)
  rw [sa, sb]
  rintro ⟨hne, hlt⟩
  rcases hfloor e he with h | ⟨h1, h2⟩
  · exact hne h
  · rcases hlt with h3 | h3 <;> omega

/-! ## The OpenCV wrapper -/

/-- A loop that writes `g i` at every index `i < m` of a buffer of length `n`
leaves a buffer of length `n` holding `g i` at those indices. -/
theorem fold_set_spec (g : Nat → Int) (n : Nat) (l : List Int) (hl : l.length = n) :
    ∀ m, m ≤ n →
      ((List.range m).foldl (fun out i => out.set i (g i)) l).length = n ∧
        ∀ i, i < m → ((List.range m).foldl (fun out i => out.set i (g i)) l).getD i 0 = g i := by
  intro m
  induction m with
  | zero => intro _; exact ⟨hl, fun i hi => absurd hi (Nat.not_lt_zero i)⟩
  | succ m ih =>
    intro hm
    obtain ⟨h1, h2⟩ := ih (by omega)
    rw [List.range_succ, List.foldl_append]
    simp only [List.foldl_cons, List.foldl_nil]
    refine ⟨by rw [List.length_set]; exact h1, ?_⟩
    intro i hi
    rw [getD_set_eq, h1]
    by_cases e : m = i
    · rw [if_pos ⟨e, by omega⟩, e]
    · rw [if_neg (fun hh => e hh.1)]
      exact h2 i (by omega)

theorem segment_data_eq (sqrt : ℚ → ℚ) (smooth : image ℚ → ℚ → image ℚ)
    (input : Mat Vec3b) (sigma c : ℚ) (min_size : Int) :
    (segment sqrt smooth input sigma c min_size).1.data =
      (List.range (input.cols * input.rows)).foldl
        (fun out i => out.set i
          ((segment_image sqrt smooth (input_rgb input) sigma c min_size).1.getD i 0 - 1))
        (List.replicate (input.rows * input.cols) 0) :=
  nested_fold (fun out i => out.set i
    ((segment_image sqrt smooth (input_rgb input) sigma c min_size).1.getD i 0 - 1))
    input.cols input.rows (List.replicate (input.rows * input.cols) 0)

/-- The buffer of the matrix `segment` fills has one entry per pixel, the
label of `segment_image` at that pixel minus 1. -/
theorem segment_data_spec (sqrt : ℚ → ℚ) (smooth : image ℚ → ℚ → image ℚ)
    (input : Mat Vec3b) (sigma c : ℚ) (min_size : Int) :
    (segment sqrt smooth input sigma c min_size).1.data.length = input.cols * input.rows ∧
      ∀ i, i < input.cols * input.rows →
        (segment sqrt smooth input sigma c min_size).1.data.getD i 0 =
          (segment_image sqrt smooth (input_rgb input) sigma c min_size).1.getD i 0 - 1 := by
  rw [segment_data_eq]
  exact fold_set_spec _ (input.cols * input.rows) _
    (by rw [List.length_replicate, Nat.mul_comm]) _ (le_refl _)

theorem segment_at_eq (sqrt : ℚ → ℚ) (smooth : image ℚ → ℚ → image ℚ)
    (input : Mat Vec3b) (sigma c : ℚ) (min_size : Int) (y x : Nat)
    (hy : y < input.rows) (hx : x < input.cols) :
    (segment sqrt smooth input sigma c min_size).1.at_ 0 y x =
      (segment_image sqrt smooth (input_rgb input) sigma c min_size).1.getD
        (y * input.cols + x) 0 - 1 :=
  (segment_data_spec sqrt smooth input sigma c min_size).2 _ (idx_lt hx hy)

/-- The component count is at least 1 for an image with a pixel and never
more than the number of pixels. -/
theorem final_num_bounds (sqrt : ℚ → ℚ) (smooth : image ℚ → ℚ → image ℚ)
    (im : image rgb) (sigma c : ℚ) (min_size : Int) :
    (0 < im.width * im.height → 1 ≤ (final_universe sqrt smooth im sigma c min_size).num) ∧
      (final_universe sqrt smooth im sigma c min_size).num ≤
        ((im.width * im.height : Nat) : Int) := by
  have hf := (final_universe_inv sqrt smooth im sigma c min_size).wf.forest
  rw [hf.num_eq]
  constructor
  · intro hn
    have := count_below_pos (im.width * im.height)
      ((final_universe sqrt smooth im sigma c min_size).find 0)
      (fun i => (final_universe sqrt smooth im sigma c min_size).p.getD i i = i)
      (hf.find_lt 0 hn) (hf.find_root 0 hn)
    omega
  · have := count_below_le (im.width * im.height)
      (fun i => (final_universe sqrt smooth im sigma c min_size).p.getD i i = i)
    omega

/-- Every label of `segment_image` lies between 1 and `num_ccs`. -/
theorem label_bounds (sqrt : ℚ → ℚ) (smooth : image ℚ → ℚ → image ℚ)
    (im : image rgb) (sigma c : ℚ) (min_size : Int) (i : Nat) (hi : i < im.width * im.height) :
    1 ≤ (segment_image sqrt smooth im sigma c min_size).1.getD i 0 ∧
      (segment_image sqrt smooth im sigma c min_size).1.getD i 0 ≤
        (final_universe sqrt smooth im sigma c min_size).num := by
  obtain ⟨st, hst, heq⟩ := segment_image_linv sqrt smooth im sigma c min_size
  have hf := (final_universe_inv sqrt smooth im sigma c min_size).wf.forest
  rw [heq]
  exact (hst.mem_output hf _).mp
    ((mem_iff_getD _ _).mpr ⟨i, by rw [hst.len_output]; exact hi, rfl⟩)

/-! ## Calls outside the documented parameter range -/

theorem create_size (n r : Nat) (hr : r < n) : (Universe.create n).size r = 1 := by
  show (List.replicate n 1).getD r 0 = 1
  rw [List.getD_eq_getElem _ _ (by rw [List.length_replicate]; exact hr),
    List.getElem_replicate]

/-- With a negative `c`, an edge of non-negative weight between two nodes of
the initial universe fails the threshold test. -/
theorem segment_graph_step_negative (n : Nat) (c : ℚ) (hc : c < 0) (e : edge)
    (ha : e.a < n) (hw : 0 ≤ e.w) :
    segment_graph_step c (Universe.create n, List.replicate n 0) e =
      (Universe.create n, List.replicate n 0) := by
  apply segment_graph_step_skip
  right
  show ¬ e.w ≤ min (threshold (Universe.create n) (List.replicate n 0) c
      ((Universe.create n).find e.a))
    (threshold (Universe.create n) (List.replicate n 0) c ((Universe.create n).find e.b))
  have t : threshold (Universe.create n) (List.replicate n 0) c
      ((Universe.create n).find e.a) = c := by
    unfold threshold
    rw [create_find, create_size n e.a ha, replicate_getD n e.a 0 ha]
    simp
  rw [t]
  intro hle
  have := (le_min_iff.mp hle).1
  linarith

theorem segment_graph_fold_negative (n : Nat) (c : ℚ) (hc : c < 0) :
    ∀ es : List edge, (∀ e ∈ es, e.a < n ∧ 0 ≤ e.w) →
      es.foldl (segment_graph_step c) (Universe.create n, List.replicate n 0) =
        (Universe.create n, List.replicate n 0) := by
  intro es
  induction es with
  | nil => intro _; rfl
  | cons e es ih =>
    intro h
    have he := h e (List.mem_cons_self e es)
    rw [List.foldl_cons, segment_graph_step_negative n c hc e he.1 he.2]
    exact ih (fun e' he' => h e' (List.mem_cons_of_mem e he'))

/-- Every generated weight is a value of `sqrt`. -/
theorem build_graph_weight (sqrt : ℚ → ℚ) (r g b : image ℚ) (W H : Nat) (e : edge)
    (he : e ∈ build_graph sqrt r g b W H) : ∃ q, e.w = sqrt q := by
  rw [mem_build_graph] at he
  obtain ⟨y, _, x, _, he⟩ := he
  rw [mem_pixel_edges] at he
  rcases he with ⟨_, rfl⟩ | ⟨_, rfl⟩ | ⟨_, _, rfl⟩ | ⟨_, _, rfl⟩ <;> exact ⟨_, rfl⟩

theorem graph_universe_negative_c (sqrt : ℚ → ℚ) (smooth : image ℚ → ℚ → image ℚ)
    (im : image rgb) (sigma c : ℚ) (hc : c < 0) (hsqrt : ∀ q, 0 ≤ sqrt q) :
    graph_universe sqrt smooth im sigma c = Universe.create (im.width * im.height) := by
  rw [graph_universe_eq, segment_graph_fold_negative _ c hc]
  intro e he
  have hmem := (mem_sort_edges _ e).mp he
  obtain ⟨q, hq⟩ := build_graph_weight sqrt _ _ _ _ _ e hmem
  exact ⟨(image_graph_lt sqrt smooth im sigma e hmem).1, by rw [hq]; exact hsqrt q⟩

/-- For an image without pixels the label buffer is empty and the component
count is 0. -/
theorem segment_image_empty (sqrt : ℚ → ℚ) (smooth : image ℚ → ℚ → image ℚ)
    (im : image rgb) (sigma c : ℚ) (min_size : Int) (hN : im.width * im.height = 0) :
    segment_image sqrt smooth im sigma c min_size = ([], 0) := by
  have hb := final_num_bounds sqrt smooth im sigma c min_size
  have h0 := (final_universe_inv sqrt smooth im sigma c min_size).wf.forest.num_nonneg
  have hnum : (final_universe sqrt smooth im sigma c min_size).num = 0 := by
    have := hb.2
    rw [hN] at this
    have h1 : ((0 : Nat) : Int) = 0 := rfl
    omega
  rw [segment_image_eq, hnum, hN]
  rfl

/-! ## The two-block scenario with a general `min_size` -/

theorem postprocess_append (min_size : Int) (u : Universe) (l1 l2 : List edge) :
    postprocess min_size u (l1 ++ l2) = postprocess min_size (postprocess min_size u l1) l2 :=
  List.foldl_append _ _ _ _

theorem two_block_sorted_graph (sqrt : ℚ → ℚ) (smooth : image ℚ → ℚ → image ℚ)
    (im : image rgb) (sigma : ℚ) (A B : rgb)
    (hW : im.width = 4) (hH : im.height = 2)
    (hA : ∀ x y, x < 2 → y < 2 → imRef im x y = A)
    (hB : ∀ x y, 2 ≤ x → x < 4 → y < 2 → imRef im x y = B)
    (hsm : ∀ ch x y, imRef (smooth ch sigma) x y = imRef ch x y)
    (hsqrt : sqrt 0 = 0) (hd : 0 < colour_dist sqrt A B) :
    sort_edges (image_graph sqrt smooth im sigma) =
      two_block_zero ++ two_block_cross (colour_dist sqrt A B) := by
  rw [two_block_graph sqrt smooth im sigma A B hW hH hA hB hsm hsqrt, two_block_sorted _ hd]

theorem two_block_graph_universe_merged (sqrt : ℚ → ℚ) (smooth : image ℚ → ℚ → image ℚ)
    (im : image rgb) (sigma c : ℚ) (A B : rgb)
    (hW : im.width = 4) (hH : im.height = 2)
    (hA : ∀ x y, x < 2 → y < 2 → imRef im x y = A)
    (hB : ∀ x y, 2 ≤ x → x < 4 → y < 2 → imRef im x y = B)
    (hsm : ∀ ch x y, imRef (smooth ch sigma) x y = imRef ch x y)
    (hsqrt : sqrt 0 = 0) (hc : 0 ≤ c) (hd : 0 < colour_dist sqrt A B)
    (hcd : colour_dist sqrt A B ≤ c / 4) :
    graph_universe sqrt smooth im sigma c = (two_block_merged (colour_dist sqrt A B)).1 := by
  have h8 : (4 * 2 : Nat) = 8 := rfl
  rw [graph_universe_eq, two_block_sorted_graph sqrt smooth im sigma A B hW hH hA hB hsm hsqrt hd,
    hW, hH, h8, List.foldl_append, two_block_after_zero c hc, two_block_cross_merge c _ hcd]

theorem two_block_universe_sizes :
    ∀ i, i < 8 → two_block_universe.size (two_block_universe.find i) = 4 := by
  decide

theorem two_block_zero_same :
    ∀ e ∈ two_block_zero, two_block_universe.find e.a = two_block_universe.find e.b := by
  simp only [two_block_zero, List.forall_mem_cons]
  decide

/-- With `min_size > 4` the post-processing loop joins the two blocks at the
first edge between them. -/
theorem two_block_postprocess_large (min_size : Int) (hms : 4 < min_size) (d : ℚ) :
    (postprocess min_size two_block_universe (two_block_zero ++ two_block_cross d)).num = 1 := by
  have hz := (postprocess_no_join min_size two_block_universe two_block_zero
    (fun e he h => h.1 (two_block_zero_same e he))).1
  have hstep : postprocess_step min_size two_block_universe ⟨d, 1, 2⟩ =
      two_block_universe.join 1 3 := by
    unfold postprocess_step
    rw [if_pos]
    · rfl
    · refine ⟨?_, Or.inl ?_⟩
      · show two_block_universe.find 1 ≠ two_block_universe.find 2
        decide
      show ((4 : Nat) : Int) < min_size
      omega
  have hrest := (postprocess_no_join min_size (two_block_universe.join 1 3)
    [⟨d, 1, 6⟩, ⟨d, 5, 6⟩, ⟨d, 5, 2⟩] (by
      intro e he h
      apply h.1
      simp only [List.mem_cons, List.mem_singleton, List.not_mem_nil, or_false] at he
      rcases he with rfl | rfl | rfl <;> rfl)).1
  rw [postprocess_append, hz]
  unfold two_block_cross
  rw [postprocess_cons, hstep, hrest]
  rfl

/-- On the two-block image the component count is 1 when the colour distance
is at most `c / 4` or `min_size` exceeds 4, and 2 otherwise. -/
theorem two_block_num_general (sqrt : ℚ → ℚ) (smooth : image ℚ → ℚ → image ℚ)
    (im : image rgb) (sigma c : ℚ) (min_size : Int) (A B : rgb)
    (hW : im.width = 4) (hH : im.height = 2)
    (hA : ∀ x y, x < 2 → y < 2 → imRef im x y = A)
    (hB : ∀ x y, 2 ≤ x → x < 4 → y < 2 → imRef im x y = B)
    (hsm : ∀ ch x y, imRef (smooth ch sigma) x y = imRef ch x y)
    (hsqrt : sqrt 0 = 0) (hd : 0 < colour_dist sqrt A B) (hc : 0 ≤ c) :
    (segment_image sqrt smooth im sigma c min_size).2 =
      if colour_dist sqrt A B ≤ c / 4 ∨ 4 < min_size then 1 else 2 := by
  have hN : im.width * im.height = 8 := by rw [hW, hH]
  have hsorted := two_block_sorted_graph sqrt smooth im sigma A B hW hH hA hB hsm hsqrt hd
  show (final_universe sqrt smooth im sigma c min_size).num = _
  by_cases hcd : colour_dist sqrt A B ≤ c / 4
  · rw [if_pos (Or.inl hcd)]
    have hg := two_block_graph_universe_merged sqrt smooth im sigma c A B hW hH hA hB hsm hsqrt
      hc hd hcd
    have hle := (postprocess_inv _ _ min_size (image_graph_lt sqrt smooth im sigma)
      (graph_universe sqrt smooth im sigma c) (sort_edges (image_graph sqrt smooth im sigma))
      (fun e he => (mem_sort_edges _ e).mp he) (graph_universe_inv sqrt smooth im sigma c)).2.2
    rw [← final_universe_eq sqrt smooth im sigma c min_size, hg] at hle
    have hge := (final_num_bounds sqrt smooth im sigma c min_size).1 (by rw [hN]; decide)
    have h1 : (two_block_merged (colour_dist sqrt A B)).1.num = 1 := rfl
    omega
  · have hg := two_block_graph_universe sqrt smooth im sigma c A B hW hH hA hB hsm hsqrt hc hd
      (not_le.mp hcd)
    rw [final_universe_eq, hg, hsorted]
    by_cases hms : 4 < min_size
    · rw [if_pos (Or.inr hms)]
      exact two_block_postprocess_large min_size hms _
    · rw [if_neg (fun h => h.elim hcd hms)]
      have hno := (postprocess_no_join min_size two_block_universe
        (two_block_zero ++ two_block_cross (colour_dist sqrt A B)) (by
          intro e he h
          rw [← hsorted] at he
          have hlt := image_graph_lt sqrt smooth im sigma e ((mem_sort_edges _ e).mp he)
          rw [hN] at hlt
          have s1 := two_block_universe_sizes e.a hlt.1
          have s2 := two_block_universe_sizes e.b hlt.2
          rw [s1, s2] at h
          rcases h.2 with h3 | h3 <;> omega)).1
      rw [hno]
      rfl

/-! ## Properties of `segment_image` -/

/-- C1 (partition property): for every two pixels `p` and `q` of the image,
given by their node ids `y * width + x`, the labels written to the output
buffer are equal if and only if `find` returns the same root for both in the
universe left by the post-processing loop. -/
theorem segment_image_partition (sqrt : ℚ → ℚ) (smooth : image ℚ → ℚ → image ℚ)
    (im : image rgb) (sigma c : ℚ) (min_size : Int) (p q : Nat)
    (hp : p < im.width * im.height) (hq : q < im.width * im.height) :
    (segment_image sqrt smooth im sigma c min_size).1.getD p 0 =
        (segment_image sqrt smooth im sigma c min_size).1.getD q 0 ↔
      (final_universe sqrt smooth im sigma c min_size).find p =
        (final_universe sqrt smooth im sigma c min_size).find q := by
  obtain ⟨st, hst, heq⟩ := segment_image_linv sqrt smooth im sigma c min_size
  rw [heq]
  exact hst.label_eq_iff (fun i hi =>
    (final_universe_inv sqrt smooth im sigma c min_size).wf.forest.find_lt i hi) p q hp hq

theorem segment_image_partition_witness :
    (0 < (red_image 3 2 [0, 0, 0, 3, 1, 3]).width * (red_image 3 2 [0, 0, 0, 3, 1, 3]).height ∧
      4 < (red_image 3 2 [0, 0, 0, 3, 1, 3]).width * (red_image 3 2 [0, 0, 0, 3, 1, 3]).height) ∧
    ((segment_image sample_sqrt no_smooth (red_image 3 2 [0, 0, 0, 3, 1, 3]) 0 2 1).1.getD 0 0 =
        (segment_image sample_sqrt no_smooth (red_image 3 2 [0, 0, 0, 3, 1, 3]) 0 2 1).1.getD 4 0 ↔
      (final_universe sample_sqrt no_smooth (red_image 3 2 [0, 0, 0, 3, 1, 3]) 0 2 1).find 0 =
        (final_universe sample_sqrt no_smooth (red_image 3 2 [0, 0, 0, 3, 1, 3]) 0 2 1).find 4) :=
  ⟨⟨by decide, by decide⟩,
    segment_image_partition sample_sqrt no_smooth (red_image 3 2 [0, 0, 0, 3, 1, 3]) 0 2 1 0 4
      (by decide) (by decide)⟩

/-- C2 (label contiguity): the values that occur in the returned label buffer
are exactly the integers `1, ..., num_ccs`, where `num_ccs` is the value of
`num_sets()` after post-processing; label 0 never appears and no label of the
range is missing. -/
theorem segment_image_labels_contiguous (sqrt : ℚ → ℚ) (smooth : image ℚ → ℚ → image ℚ)
    (im : image rgb) (sigma c : ℚ) (min_size : Int) :
    (segment_image sqrt smooth im sigma c min_size).2 =
        (final_universe sqrt smooth im sigma c min_size).num_sets ∧
      ∀ k : Int, k ∈ (segment_image sqrt smooth im sigma c min_size).1 ↔
        1 ≤ k ∧ k ≤ (segment_image sqrt smooth im sigma c min_size).2 := by
  refine ⟨rfl, ?_⟩
  intro k
  obtain ⟨st, hst, heq⟩ := segment_image_linv sqrt smooth im sigma c min_size
  rw [heq]
  exact hst.mem_output (final_universe_inv sqrt smooth im sigma c min_size).wf.forest k

/-- C5 (raster-order label assignment): in an image with at least one pixel,
the first pixel has label 1; a pixel with a label `k > 1` is preceded in
raster order by a pixel with label `k - 1`, so the first position of `k`
comes after the first position of `k - 1`; and the label of every later pixel
is at most one more than the label of some earlier pixel. -/
theorem segment_image_raster_order (sqrt : ℚ → ℚ) (smooth : image ℚ → ℚ → image ℚ)
    (im : image rgb) (sigma c : ℚ) (min_size : Int)
    (hW : 1 ≤ im.width) (hH : 1 ≤ im.height) :
    (segment_image sqrt smooth im sigma c min_size).1.getD 0 0 = 1 ∧
      (∀ i k, i < im.width * im.height → 1 < k →
        (segment_image sqrt smooth im sigma c min_size).1.getD i 0 = k →
        ∃ j, j < i ∧ (segment_image sqrt smooth im sigma c min_size).1.getD j 0 = k - 1) ∧
      (∀ i, 0 < i → i < im.width * im.height →
        ∃ j, j < i ∧ (segment_image sqrt smooth im sigma c min_size).1.getD i 0 ≤
          (segment_image sqrt smooth im sigma c min_size).1.getD j 0 + 1) := by
  obtain ⟨st, hst, heq⟩ := segment_image_linv sqrt smooth im sigma c min_size
  rw [heq]
  dsimp only
  have hf := (final_universe_inv sqrt smooth im sigma c min_size).wf.forest
  have hn : 0 < im.width * im.height := Nat.mul_pos hW hH
  have hge : ∀ i, i < im.width * im.height → 1 ≤ st.output.getD i 0 := by
    intro i hi
    rw [hst.out i hi]
    exact (hst.range _ (hf.find_lt i hi) ((hst.seen _ (hf.find_lt i hi)).mpr ⟨i, hi, rfl⟩)).1
  have h0 : st.output.getD 0 0 = 1 := by
    by_contra hne
    have h1 := hge 0 hn
    obtain ⟨j, hj, _⟩ := hst.prev 0 hn (by omega)
    omega
  refine ⟨h0, ?_, ?_⟩
  · intro i k hi hk e
    obtain ⟨j, hj, hj2⟩ := hst.prev i hi (by show 1 < st.output.getD i 0; omega)
    exact ⟨j, hj, by rw [hj2]; show st.output.getD i 0 - 1 = k - 1; omega⟩
  · intro i hi0 hi
    by_cases h1 : 1 < st.output.getD i 0
    · obtain ⟨j, hj, hj2⟩ := hst.prev i hi h1
      exact ⟨j, hj, by show st.output.getD i 0 ≤ st.output.getD j 0 + 1; omega⟩
    · exact ⟨0, hi0, by show st.output.getD i 0 ≤ st.output.getD 0 0 + 1; omega⟩

theorem segment_image_raster_order_witness :
    (1 ≤ (red_image 3 2 [0, 0, 0, 3, 1, 3]).width ∧
      1 ≤ (red_image 3 2 [0, 0, 0, 3, 1, 3]).height) ∧
    (segment_image sample_sqrt no_smooth (red_image 3 2 [0, 0, 0, 3, 1, 3]) 0 3 1).1.getD 0 0 = 1 :=
  ⟨⟨by decide, by decide⟩,
    (segment_image_raster_order sample_sqrt no_smooth (red_image 3 2 [0, 0, 0, 3, 1, 3]) 0 3 1
      (by decide) (by decide)).1⟩

/-- C6 (degenerate image): for a 1x1 image and every `sigma`, `c` and
`min_size`, no edge is generated, no join is performed (the universe is the
initial one), `num_ccs` is 1 and the label buffer is `[1]`. -/
theorem segment_image_single_pixel (sqrt : ℚ → ℚ) (smooth : image ℚ → ℚ → image ℚ)
    (im : image rgb) (sigma c : ℚ) (min_size : Int)
    (hW : im.width = 1) (hH : im.height = 1) :
    image_graph sqrt smooth im sigma = [] ∧
      final_universe sqrt smooth im sigma c min_size = Universe.create 1 ∧
      segment_image sqrt smooth im sigma c min_size = ([1], 1) := by
  have hg : image_graph sqrt smooth im sigma = [] := by
    unfold image_graph
    rw [hW, hH]
    rfl
  have hu : final_universe sqrt smooth im sigma c min_size = Universe.create 1 := by
    rw [final_universe_eq]
    unfold graph_universe
    rw [hg, hW, hH]
    rfl
  refine ⟨hg, hu, ?_⟩
  rw [segment_image_eq, hu, hW, hH]
  rfl

theorem segment_image_single_pixel_witness :
    ((red_image 1 1 [7]).width = 1 ∧ (red_image 1 1 [7]).height = 1) ∧
      segment_image sample_sqrt no_smooth (red_image 1 1 [7]) (1 / 2) 500 20 = ([1], 1) :=
  ⟨⟨rfl, rfl⟩,
    (segment_image_single_pixel sample_sqrt no_smooth (red_image 1 1 [7]) (1 / 2) 500 20
      rfl rfl).2.2⟩

/-- C10 (connected regions): any two pixels with the same output label are
joined by a path of generated edges all of whose endpoints carry that label;
the components of the universe returned by `segment_graph`, before the forced
merges, are connected by generated edges in the same way. -/
theorem segment_image_connected (sqrt : ℚ → ℚ) (smooth : image ℚ → ℚ → image ℚ)
    (im : image rgb) (sigma c : ℚ) (min_size : Int) (p q : Nat)
    (hp : p < im.width * im.height) (hq : q < im.width * im.height) :
    ((segment_image sqrt smooth im sigma c min_size).1.getD p 0 =
        (segment_image sqrt smooth im sigma c min_size).1.getD q 0 →
      Relation.ReflTransGen
        (fun s t => adjacent (image_graph sqrt smooth im sigma) s t ∧
          (segment_image sqrt smooth im sigma c min_size).1.getD s 0 =
            (segment_image sqrt smooth im sigma c min_size).1.getD p 0 ∧
          (segment_image sqrt smooth im sigma c min_size).1.getD t 0 =
            (segment_image sqrt smooth im sigma c min_size).1.getD p 0) p q) ∧
    ((graph_universe sqrt smooth im sigma c).find p =
        (graph_universe sqrt smooth im sigma c).find q →
      Relation.ReflTransGen
        (fun s t => adjacent (image_graph sqrt smooth im sigma) s t ∧
          (graph_universe sqrt smooth im sigma c).find s =
            (graph_universe sqrt smooth im sigma c).find p ∧
          (graph_universe sqrt smooth im sigma c).find t =
            (graph_universe sqrt smooth im sigma c).find p) p q) := by
  constructor
  · intro h
    have hinv := final_universe_inv sqrt smooth im sigma c min_size
    obtain ⟨st, hst, heq⟩ := segment_image_linv sqrt smooth im sigma c min_size
    have hf := fun i hi => hinv.wf.forest.find_lt i hi
    rw [heq] at h ⊢
    dsimp only at h ⊢
    have hfind := (hst.label_eq_iff hf p q hp hq).mp h
    refine Relation.ReflTransGen.mono ?_ (linked_within (hinv.conn p q hp hq hfind)).2
    rintro s t ⟨hadj, hs, ht⟩
    have hst_lt : s < im.width * im.height ∧ t < im.width * im.height := by
      obtain ⟨e, he, h1 | h1⟩ := hadj
      · exact ⟨h1.1 ▸ (image_graph_lt sqrt smooth im sigma e he).1,
          h1.2 ▸ (image_graph_lt sqrt smooth im sigma e he).2⟩
      · exact ⟨h1.2 ▸ (image_graph_lt sqrt smooth im sigma e he).2,
          h1.1 ▸ (image_graph_lt sqrt smooth im sigma e he).1⟩
    exact ⟨hadj, (hst.label_eq_iff hf s p hst_lt.1 hp).mpr hs,
      (hst.label_eq_iff hf t p hst_lt.2 hp).mpr ht⟩
  · intro h
    exact (linked_within ((graph_universe_inv sqrt smooth im sigma c).conn p q hp hq h)).2

theorem segment_image_connected_witness :
    (0 < (red_image 3 2 [0, 0, 0, 3, 1, 3]).width * (red_image 3 2 [0, 0, 0, 3, 1, 3]).height ∧
      2 < (red_image 3 2 [0, 0, 0, 3, 1, 3]).width * (red_image 3 2 [0, 0, 0, 3, 1, 3]).height) ∧
    ((graph_universe sample_sqrt no_smooth (red_image 3 2 [0, 0, 0, 3, 1, 3]) 0 2).find 0 =
        (graph_universe sample_sqrt no_smooth (red_image 3 2 [0, 0, 0, 3, 1, 3]) 0 2).find 2 →
      Relation.ReflTransGen
        (fun s t =>
          adjacent (image_graph sample_sqrt no_smooth (red_image 3 2 [0, 0, 0, 3, 1, 3]) 0) s t ∧
          (graph_universe sample_sqrt no_smooth (red_image 3 2 [0, 0, 0, 3, 1, 3]) 0 2).find s =
            (graph_universe sample_sqrt no_smooth (red_image 3 2 [0, 0, 0, 3, 1, 3]) 0 2).find 0 ∧
          (graph_universe sample_sqrt no_smooth (red_image 3 2 [0, 0, 0, 3, 1, 3]) 0 2).find t =
            (graph_universe sample_sqrt no_smooth (red_image 3 2 [0, 0, 0, 3, 1, 3]) 0 2).find 0)
        0 2) :=
  ⟨⟨by decide, by decide⟩,
    (segment_image_connected sample_sqrt no_smooth (red_image 3 2 [0, 0, 0, 3, 1, 3]) 0 2 1 0 2
      (by decide) (by decide)).2⟩

/-- C3 (min-size floor): in an image with at least one pixel, the size stored
for the root of every pixel is the number of pixels carrying that pixel's
label; when `min_size` is at most `width * height` every such number is at
least `min_size`; and when `min_size` exceeds `width * height` exactly one
component remains (`num_ccs` is 1). -/
theorem segment_image_min_size (sqrt : ℚ → ℚ) (smooth : image ℚ → ℚ → image ℚ)
    (im : image rgb) (sigma c : ℚ) (min_size : Int)
    (hW : 1 ≤ im.width) (hH : 1 ≤ im.height) :
    (∀ p, p < im.width * im.height →
      (final_universe sqrt smooth im sigma c min_size).size
          ((final_universe sqrt smooth im sigma c min_size).find p) =
        (segment_image sqrt smooth im sigma c min_size).1.count
          ((segment_image sqrt smooth im sigma c min_size).1.getD p 0)) ∧
    (min_size ≤ ((im.width * im.height : Nat) : Int) →
      ∀ p, p < im.width * im.height →
        min_size ≤ (((segment_image sqrt smooth im sigma c min_size).1.count
          ((segment_image sqrt smooth im sigma c min_size).1.getD p 0) : Nat) : Int)) ∧
    (((im.width * im.height : Nat) : Int) < min_size →
      (segment_image sqrt smooth im sigma c min_size).2 = 1) := by
  have hinv := final_universe_inv sqrt smooth im sigma c min_size
  have hf := hinv.wf.forest
  obtain ⟨st, hst, heq⟩ := segment_image_linv sqrt smooth im sigma c min_size
  have hn : 0 < im.width * im.height := Nat.mul_pos hW hH
  have hcount : ∀ p, p < im.width * im.height →
      st.output.count (st.output.getD p 0) =
        count_below (im.width * im.height)
          (fun j => (final_universe sqrt smooth im sigma c min_size).find j =
            (final_universe sqrt smooth im sigma c min_size).find p) := by
    intro p hp
    rw [count_eq_count_below, hst.len_output]
    apply count_below_congr
    intro i hi
    exact hst.label_eq_iff (fun i hi => hf.find_lt i hi) i p hi hp
  rw [heq]
  dsimp only
  refine ⟨?_, ?_, ?_⟩
  · intro p hp
    rw [hcount p hp]
    exact hinv.wf.size_eq _ (hf.find_lt p hp) (hf.find_root p hp)
  · intro hms p hp
    rw [hcount p hp]
    by_contra hlt
    have hall := small_class_whole sqrt smooth im sigma c min_size p hp (by omega)
    rw [count_below_true _ _ hall] at hlt
    omega
  · intro hms
    have hle := count_below_le (im.width * im.height)
      (fun j => (final_universe sqrt smooth im sigma c min_size).find j =
        (final_universe sqrt smooth im sigma c min_size).find 0)
    have hall := small_class_whole sqrt smooth im sigma c min_size 0 hn (by omega)
    exact num_eq_one_of_all_same hf hn hall

theorem segment_image_min_size_witness :
    (1 ≤ (red_image 3 2 [0, 0, 0, 3, 1, 3]).width ∧
      1 ≤ (red_image 3 2 [0, 0, 0, 3, 1, 3]).height) ∧
    ((((red_image 3 2 [0, 0, 0, 3, 1, 3]).width *
        (red_image 3 2 [0, 0, 0, 3, 1, 3]).height : Nat) : Int) < 7 →
      (segment_image sample_sqrt no_smooth (red_image 3 2 [0, 0, 0, 3, 1, 3]) 0 2 7).2 = 1) :=
  ⟨⟨by decide, by decide⟩,
    (segment_image_min_size sample_sqrt no_smooth (red_image 3 2 [0, 0, 0, 3, 1, 3]) 0 2 7
      (by decide) (by decide)).2.2⟩

/-- C4 (edge graph builder): every generated edge joins the node ids
`y * W + x` and `y' * W + x'` of two distinct in-range pixels that are
8-adjacent, so both ids are below `W * H`; and for every pair of distinct
8-adjacent pixels of the grid exactly one index of the edge list holds an
edge with those two pixels as endpoints. -/
theorem build_graph_eight_connected (sqrt : ℚ → ℚ) (r g b : image ℚ) (W H : Nat) :
    (∀ e ∈ build_graph sqrt r g b W H, ∃ x y x' y',
      x < W ∧ y < H ∧ x' < W ∧ y' < H ∧ adjacent8 x y x' y' ∧
        e.a = y * W + x ∧ e.b = y' * W + x' ∧ e.a < W * H ∧ e.b < W * H) ∧
    (∀ x y x' y', x < W → y < H → x' < W → y' < H → adjacent8 x y x' y' →
      ∃! i : Nat, ∃ e, (build_graph sqrt r g b W H)[i]? = some e ∧
        joins e (y * W + x) (y' * W + x')) := by
  constructor
  · intro e he
    have hlt := build_graph_lt sqrt r g b W H e he
    rw [mem_build_graph] at he
    obtain ⟨y, hy, x, hx, he⟩ := he
    rw [mem_pixel_edges] at he
    rcases he with ⟨h1, rfl⟩ | ⟨h1, rfl⟩ | ⟨h1, h2, rfl⟩ | ⟨h1, h2, rfl⟩
    · exact ⟨x, y, x + 1, y, hx, hy, by omega, hy, by unfold adjacent8; omega, rfl, rfl, hlt⟩
    · exact ⟨x, y, x, y + 1, hx, hy, hx, by omega, by unfold adjacent8; omega, rfl, rfl, hlt⟩
    · exact ⟨x, y, x + 1, y + 1, hx, hy, by omega, by omega, by unfold adjacent8; omega,
        rfl, rfl, hlt⟩
    · exact ⟨x, y, x + 1, y - 1, hx, hy, by omega, by omega, by unfold adjacent8; omega,
        rfl, rfl, hlt⟩
  · intro x y x' y' hx hy hx' hy' hadj
    have hex : ∃ e ∈ build_graph sqrt r g b W H, joins e (y * W + x) (y' * W + x') := by
      unfold adjacent8 at hadj
      by_cases hfw : (x' = x + 1 ∧ (y' = y ∨ y' = y + 1 ∨ y = y' + 1)) ∨ (x' = x ∧ y' = y + 1)
      · obtain ⟨e, he, h1, h2⟩ :=
          build_graph_forward_edge sqrt r g b W H x y x' y' hx' hy hy' hfw
        exact ⟨e, he, Or.inl ⟨h1, h2⟩⟩
      · obtain ⟨e, he, h1, h2⟩ :=
          build_graph_forward_edge sqrt r g b W H x' y' x y hx hy' hy (by omega)
        exact ⟨e, he, Or.inr ⟨h1, h2⟩⟩
    obtain ⟨e, he, hj⟩ := hex
    obtain ⟨i, hi⟩ := List.getElem?_of_mem he
    refine ⟨i, ⟨e, hi, hj⟩, ?_⟩
    rintro j ⟨e', hj', hjj⟩
    have hmem' : e' ∈ build_graph sqrt r g b W H := List.mem_iff_getElem?.mpr ⟨j, hj'⟩
    have hkey : edge_key e' = edge_key e := by
      have f1 := build_graph_forward sqrt r g b W H e he
      have f2 := build_graph_forward sqrt r g b W H e' hmem'
      unfold edge_key
      rcases hj with ⟨a1, b1⟩ | ⟨a1, b1⟩ <;> rcases hjj with ⟨a2, b2⟩ | ⟨a2, b2⟩
      · rw [a1, b1, a2, b2]
      · rw [a1, b1] at f1; rw [a2, b2] at f2; omega
      · rw [a1, b1] at f1; rw [a2, b2] at f2; omega
      · rw [a1, b1, a2, b2]
    have hnd := build_graph_keys_nodup sqrt r g b W H
    have hi' : ((build_graph sqrt r g b W H).map edge_key)[i]? = some (edge_key e) := by
      rw [List.getElem?_map, hi]; rfl
    have hj'' : ((build_graph sqrt r g b W H).map edge_key)[j]? = some (edge_key e) := by
      rw [List.getElem?_map, hj', ← hkey]; rfl
    obtain ⟨hil, hie⟩ := List.getElem?_eq_some_iff.mp hi'
    obtain ⟨hjl, hje⟩ := List.getElem?_eq_some_iff.mp hj''
    exact (List.Nodup.getElem_inj_iff hnd).mp (hje.trans hie.symm)

/-- C7 (uniform image): for an image with at least one pixel whose smoothed
pixels all have the same colour, for every merge constant `c` of the
interface (`c > 0`; the proof also covers `c = 0`) and every `min_size`, with
`sqrt 0 = 0`, every edge weight is 0, `num_ccs` is 1 and every label is 1. -/
theorem segment_image_uniform (sqrt : ℚ → ℚ) (smooth : image ℚ → ℚ → image ℚ)
    (im : image rgb) (sigma c : ℚ) (min_size : Int) (cr cg cb : ℚ)
    (hW : 1 ≤ im.width) (hH : 1 ≤ im.height) (hsqrt : sqrt 0 = 0) (hc : 0 ≤ c)
    (hr : ∀ x y, x < im.width → y < im.height →
      imRef (smooth (channel rgb.r im) sigma) x y = cr)
    (hg : ∀ x y, x < im.width → y < im.height →
      imRef (smooth (channel rgb.g im) sigma) x y = cg)
    (hb : ∀ x y, x < im.width → y < im.height →
      imRef (smooth (channel rgb.b im) sigma) x y = cb) :
    (∀ e ∈ image_graph sqrt smooth im sigma, e.w = 0) ∧
      segment_image sqrt smooth im sigma c min_size =
        (List.replicate (im.width * im.height) 1, 1) := by
  have hn : 0 < im.width * im.height := Nat.mul_pos hW hH
  have hE := image_graph_lt sqrt smooth im sigma
  have hw : ∀ e ∈ image_graph sqrt smooth im sigma, e.w = 0 := by
    intro e he
    rw [← hsqrt]
    exact build_graph_uniform sqrt _ _ _ im.width im.height cr cg cb hr hg hb e he
  have hg1 : ∀ e ∈ image_graph sqrt smooth im sigma,
      (graph_universe sqrt smooth im sigma c).find e.a =
        (graph_universe sqrt smooth im sigma c).find e.b := by
    intro e he
    exact segment_graph_fold_zero c hc hE (sort_edges (image_graph sqrt smooth im sigma))
      (Universe.create (im.width * im.height), List.replicate (im.width * im.height) 0)
      (fun e' he' => ⟨(mem_sort_edges _ e').mp he', hw e' ((mem_sort_edges _ e').mp he')⟩)
      (create_inv _ _) (replicate_getD_nonneg _) e ((mem_sort_edges _ e).mpr he)
  have hall1 : ∀ i, i < im.width * im.height →
      (graph_universe sqrt smooth im sigma c).find i =
        (graph_universe sqrt smooth im sigma c).find 0 :=
    build_graph_connected sqrt _ _ _ im.width im.height
      (fun i => (graph_universe sqrt smooth im sigma c).find i =
        (graph_universe sqrt smooth im sigma c).find 0)
      (fun e he => by
        show (graph_universe sqrt smooth im sigma c).find e.a = _ ↔
          (graph_universe sqrt smooth im sigma c).find e.b = _
        rw [hg1 e he])
      rfl
  have hco : coarsens (im.width * im.height) (graph_universe sqrt smooth im sigma c)
      (final_universe sqrt smooth im sigma c min_size) := by
    rw [final_universe_eq]
    exact (postprocess_inv _ _ min_size hE _ _ (fun e he => (mem_sort_edges _ e).mp he)
      (graph_universe_inv sqrt smooth im sigma c)).2.1
  have hinv := final_universe_inv sqrt smooth im sigma c min_size
  have hnum : (final_universe sqrt smooth im sigma c min_size).num = 1 :=
    num_eq_one_of_all_same hinv.wf.forest hn (fun i hi => hco i 0 hi hn (hall1 i hi))
  refine ⟨hw, ?_⟩
  obtain ⟨st, hst, heq⟩ := segment_image_linv sqrt smooth im sigma c min_size
  rw [heq, hnum]
  congr 1
  rw [List.eq_replicate_iff]
  refine ⟨hst.len_output, ?_⟩
  intro k hk
  have := (hst.mem_output hinv.wf.forest k).mp hk
  omega

theorem segment_image_uniform_witness :
    (1 ≤ (flat_image 3 2 ⟨9, 8, 7⟩).width ∧ 1 ≤ (flat_image 3 2 ⟨9, 8, 7⟩).height ∧
      sample_sqrt 0 = 0 ∧ (0 : ℚ) ≤ 500) ∧
    segment_image sample_sqrt no_smooth (flat_image 3 2 ⟨9, 8, 7⟩) 0 500 20 =
      (List.replicate ((flat_image 3 2 ⟨9, 8, 7⟩).width * (flat_image 3 2 ⟨9, 8, 7⟩).height) 1,
        1) :=
  ⟨⟨by decide, by decide, by decide!, by decide⟩,
    (segment_image_uniform sample_sqrt no_smooth (flat_image 3 2 ⟨9, 8, 7⟩) 0 500 20 9 8 7
      (by decide) (by decide) (by decide!) (by decide)
      (fun _ _ _ _ => rfl) (fun _ _ _ _ => rfl) (fun _ _ _ _ => rfl)).2⟩

/-- C8 (two-block scenario): for a 4x2 image whose left two columns have the
colour `A` and whose right two columns the colour `B`, with `sigma = 0`
smoothing that returns its input, `min_size = 1` and `0 < c < distance(A, B)`,
`segment_image` yields `num_ccs = 2` and the label rows `[1,1,2,2]` and
`[1,1,2,2]`. -/
theorem segment_image_two_blocks (sqrt : ℚ → ℚ) (smooth : image ℚ → ℚ → image ℚ)
    (im : image rgb) (c : ℚ) (A B : rgb)
    (hW : im.width = 4) (hH : im.height = 2)
    (hA : ∀ x y, x < 2 → y < 2 → imRef im x y = A)
    (hB : ∀ x y, 2 ≤ x → x < 4 → y < 2 → imRef im x y = B)
    (hsm : ∀ ch x y, imRef (smooth ch 0) x y = imRef ch x y)
    (hsqrt : sqrt 0 = 0) (hc : 0 < c) (hcd : c < colour_dist sqrt A B) :
    segment_image sqrt smooth im 0 c 1 = ([1, 1, 2, 2, 1, 1, 2, 2], 2) := by
  have hu : final_universe sqrt smooth im 0 c 1 = two_block_universe := by
    rw [final_universe_of_min_size_le_one sqrt smooth im 0 c 1 (le_refl _)]
    exact two_block_graph_universe sqrt smooth im 0 c A B hW hH hA hB hsm hsqrt hc.le
      (by linarith) (by linarith)
  unfold segment_image
  simp only [hu, hW, hH, two_block_labels]
  rfl

theorem segment_image_two_blocks_witness :
    ((0 : ℚ) < 1 ∧ (1 : ℚ) < colour_dist sample_sqrt ⟨10, 20, 30⟩ ⟨13, 24, 30⟩) ∧
      segment_image sample_sqrt no_smooth (two_block_image ⟨10, 20, 30⟩ ⟨13, 24, 30⟩) 0 1 1 =
        ([1, 1, 2, 2, 1, 1, 2, 2], 2) :=
  ⟨⟨by decide, by decide!⟩,
    segment_image_two_blocks sample_sqrt no_smooth (two_block_image ⟨10, 20, 30⟩ ⟨13, 24, 30⟩)
      1 ⟨10, 20, 30⟩ ⟨13, 24, 30⟩ rfl rfl (fun _ _ hx _ => if_pos hx)
      (fun _ _ hx _ _ => if_neg (by omega)) (fun _ _ _ => rfl) (by decide!) (by decide)
      (by decide!)⟩

/-- C9 (monotonic `c`), as the code has it: on the two-block image of C8 with
a positive colour distance and smoothing that returns its input, for every
`sigma` and `min_size` and every `0 < c1 <= c2`, the `num_ccs` produced with
`c2` is at most the `num_ccs` produced with `c1`. -/
theorem segment_image_two_blocks_monotone (sqrt : ℚ → ℚ) (smooth : image ℚ → ℚ → image ℚ)
    (im : image rgb) (sigma c1 c2 : ℚ) (min_size : Int) (A B : rgb)
    (hW : im.width = 4) (hH : im.height = 2)
    (hA : ∀ x y, x < 2 → y < 2 → imRef im x y = A)
    (hB : ∀ x y, 2 ≤ x → x < 4 → y < 2 → imRef im x y = B)
    (hsm : ∀ ch x y, imRef (smooth ch sigma) x y = imRef ch x y)
    (hsqrt : sqrt 0 = 0) (hd : 0 < colour_dist sqrt A B) (h1 : 0 < c1) (h12 : c1 ≤ c2) :
    (segment_image sqrt smooth im sigma c2 min_size).2 ≤
      (segment_image sqrt smooth im sigma c1 min_size).2 := by
  rw [two_block_num_general sqrt smooth im sigma c1 min_size A B hW hH hA hB hsm hsqrt hd h1.le,
    two_block_num_general sqrt smooth im sigma c2 min_size A B hW hH hA hB hsm hsqrt hd
      (le_trans h1.le h12)]
  by_cases hc : colour_dist sqrt A B ≤ c1 / 4 ∨ 4 < min_size
  · have hc2 : colour_dist sqrt A B ≤ c2 / 4 ∨ 4 < min_size := by
      rcases hc with h | h
      · exact Or.inl (by linarith)
      · exact Or.inr h
    rw [if_pos hc, if_pos hc2]
  · rw [if_neg hc]
    split <;> decide

theorem segment_image_two_blocks_monotone_witness :
    ((0 : ℚ) < colour_dist sample_sqrt ⟨10, 20, 30⟩ ⟨13, 24, 30⟩ ∧ (0 : ℚ) < 1 ∧
        (1 : ℚ) ≤ 30) ∧
      (segment_image sample_sqrt no_smooth
          (two_block_image ⟨10, 20, 30⟩ ⟨13, 24, 30⟩) 0 30 3).2 ≤
        (segment_image sample_sqrt no_smooth
          (two_block_image ⟨10, 20, 30⟩ ⟨13, 24, 30⟩) 0 1 3).2 :=
  ⟨⟨by decide!, by decide, by decide⟩,
    segment_image_two_blocks_monotone sample_sqrt no_smooth
      (two_block_image ⟨10, 20, 30⟩ ⟨13, 24, 30⟩) 0 1 30 3 ⟨10, 20, 30⟩ ⟨13, 24, 30⟩ rfl rfl
      (fun _ _ hx _ => if_pos hx) (fun _ _ hx _ _ => if_neg (by omega)) (fun _ _ _ => rfl)
      (by decide!) (by decide!) (by decide) (by decide)⟩

/-- C9 as stated fails: on the 3x2 image with red samples `0 0 0 / 3 1 3`,
no smoothing and `min_size = 1`, `c = 2` gives 2 components and the larger
`c = 3` gives 3. -/
theorem segment_image_not_monotone :
    (0 : ℚ) < 2 ∧ (2 : ℚ) ≤ 3 ∧
      (segment_image sample_sqrt no_smooth (red_image 3 2 [0, 0, 0, 3, 1, 3]) 0 2 1).2 = 2 ∧
      (segment_image sample_sqrt no_smooth (red_image 3 2 [0, 0, 0, 3, 1, 3]) 0 3 1).2 = 3 := by
  decide!

/-- C13 (join discipline of the post-processing pass): every call
`u->join(a, b)` of the small-component loop is made with `a` and `b` two
distinct current roots (`find(a) = a`, `find(b) = b`, `a != b`) and lowers
`num_sets` by exactly 1, and the final `num_ccs` is the component count
returned by `segment_graph` minus the number of forced joins. -/
theorem postprocess_join_discipline (sqrt : ℚ → ℚ) (smooth : image ℚ → ℚ → image ℚ)
    (im : image rgb) (sigma c : ℚ) (min_size : Int) :
    (∀ call ∈ postprocess_calls min_size (graph_universe sqrt smooth im sigma c)
        (sort_edges (image_graph sqrt smooth im sigma)),
      call.1.find call.2.1 = call.2.1 ∧ call.1.find call.2.2 = call.2.2 ∧
        call.2.1 ≠ call.2.2 ∧
        (call.1.join call.2.1 call.2.2).num_sets = call.1.num_sets - 1) ∧
    (segment_image sqrt smooth im sigma c min_size).2 =
      (graph_universe sqrt smooth im sigma c).num_sets -
        ((postprocess_calls min_size (graph_universe sqrt smooth im sigma c)
          (sort_edges (image_graph sqrt smooth im sigma))).length : Int) :=
  postprocess_calls_spec min_size (image_graph_lt sqrt smooth im sigma)
    (sort_edges (image_graph sqrt smooth im sigma)) (graph_universe sqrt smooth im sigma c)
    (fun e he => (mem_sort_edges _ e).mp he) (graph_universe_inv sqrt smooth im sigma c)

/-- C17 (post-processing is the identity when `min_size <= 1`): the
small-component loop makes no join, the universe is the one `segment_graph`
returned, and `num_ccs` is its component count. -/
theorem postprocess_identity (sqrt : ℚ → ℚ) (smooth : image ℚ → ℚ → image ℚ)
    (im : image rgb) (sigma c : ℚ) (min_size : Int) (hms : min_size ≤ 1) :
    postprocess_calls min_size (graph_universe sqrt smooth im sigma c)
        (sort_edges (image_graph sqrt smooth im sigma)) = [] ∧
      final_universe sqrt smooth im sigma c min_size = graph_universe sqrt smooth im sigma c ∧
      (segment_image sqrt smooth im sigma c min_size).2 =
        (graph_universe sqrt smooth im sigma c).num_sets := by
  have hinv := graph_universe_inv sqrt smooth im sigma c
  have hE := image_graph_lt sqrt smooth im sigma
  have hno := postprocess_no_join min_size (graph_universe sqrt smooth im sigma c)
    (sort_edges (image_graph sqrt smooth im sigma)) (by
      intro e he
      have hmem := (mem_sort_edges _ e).mp he
      have h1 := root_size_pos hinv e.a (hE e hmem).1
      have h2 := root_size_pos hinv e.b (hE e hmem).2
      rintro ⟨_, h3 | h3⟩ <;> omega)
  have hu : final_universe sqrt smooth im sigma c min_size =
      graph_universe sqrt smooth im sigma c := by
    rw [final_universe_eq]; exact hno.1
  refine ⟨hno.2, hu, ?_⟩
  show (final_universe sqrt smooth im sigma c min_size).num = _
  rw [hu]
  rfl

theorem postprocess_identity_witness :
    ((0 : Int) ≤ 1) ∧
      final_universe sample_sqrt no_smooth (red_image 3 2 [0, 0, 0, 3, 1, 3]) 0 3 0 =
        graph_universe sample_sqrt no_smooth (red_image 3 2 [0, 0, 0, 3, 1, 3]) 0 3 :=
  ⟨by decide,
    (postprocess_identity sample_sqrt no_smooth (red_image 3 2 [0, 0, 0, 3, 1, 3]) 0 3 0
      (by decide)).2.1⟩

/-- C18 (post-processing only coarsens the partition): two pixels in one
component after `segment_graph` are in one component of the final universe
and have the same output label, and the final `num_ccs` is at most the
component count `segment_graph` returned. -/
theorem postprocess_coarsens (sqrt : ℚ → ℚ) (smooth : image ℚ → ℚ → image ℚ)
    (im : image rgb) (sigma c : ℚ) (min_size : Int) :
    (∀ p q, p < im.width * im.height → q < im.width * im.height →
      (graph_universe sqrt smooth im sigma c).find p =
        (graph_universe sqrt smooth im sigma c).find q →
      (final_universe sqrt smooth im sigma c min_size).find p =
          (final_universe sqrt smooth im sigma c min_size).find q ∧
        (segment_image sqrt smooth im sigma c min_size).1.getD p 0 =
          (segment_image sqrt smooth im sigma c min_size).1.getD q 0) ∧
    (segment_image sqrt smooth im sigma c min_size).2 ≤
      (graph_universe sqrt smooth im sigma c).num_sets := by
  obtain ⟨_, hco, hnum⟩ := postprocess_inv _ _ min_size (image_graph_lt sqrt smooth im sigma)
    (graph_universe sqrt smooth im sigma c) (sort_edges (image_graph sqrt smooth im sigma))
    (fun e he => (mem_sort_edges _ e).mp he) (graph_universe_inv sqrt smooth im sigma c)
  rw [← final_universe_eq sqrt smooth im sigma c min_size] at hco hnum
  refine ⟨?_, hnum⟩
  intro p q hp hq h
  have hfin := hco p q hp hq h
  refine ⟨hfin, ?_⟩
  obtain ⟨st, hst, heq⟩ := segment_image_linv sqrt smooth im sigma c min_size
  rw [heq]
  exact (hst.label_eq_iff (fun i hi =>
    (final_universe_inv sqrt smooth im sigma c min_size).wf.forest.find_lt i hi) p q hp hq).mpr
    hfin

/-- C19 (the small-component pass is idempotent): running the loop a second
time over the same edge list on the universe left by the first run makes no
join and leaves the universe, hence the partition and `num_sets`, unchanged. -/
theorem postprocess_idempotent (sqrt : ℚ → ℚ) (smooth : image ℚ → ℚ → image ℚ)
    (im : image rgb) (sigma c : ℚ) (min_size : Int) :
    postprocess_calls min_size (final_universe sqrt smooth im sigma c min_size)
        (sort_edges (image_graph sqrt smooth im sigma)) = [] ∧
      postprocess min_size (final_universe sqrt smooth im sigma c min_size)
          (sort_edges (image_graph sqrt smooth im sigma)) =
        final_universe sqrt smooth im sigma c min_size := by
  have h := postprocess_no_join min_size (final_universe sqrt smooth im sigma c min_size)
    (sort_edges (image_graph sqrt smooth im sigma))
    (final_universe_no_join sqrt smooth im sigma c min_size)
  exact ⟨h.2, h.1⟩

/-- C15 (edge buffer bound), as the code has it: when `width*height*4`
fits an `int` (`W * H * 4 < 2^31`), each pixel contributes at most 4 edges,
the final edge count is at most `4 * W * H`, the capacity computed in `int`
is `W * H * 4`, so every index written in `edges` is strictly below the
capacity; a pixel in the last column, the last row or the first row
contributes strictly fewer than 4. -/
theorem build_graph_buffer_bound (sqrt : ℚ → ℚ) (r g b : image ℚ) (W H : Nat)
    (hcap : W * H * 4 < 2147483648) :
    (∀ x y, (pixel_edges sqrt r g b W H x y).length ≤ 4) ∧
      (build_graph sqrt r g b W H).length ≤ 4 * W * H ∧
      edge_capacity W H = ((W * H * 4 : Nat) : Int) ∧
      (∀ (i : Nat) (e : edge), (build_graph sqrt r g b W H)[i]? = some e →
        (i : Int) < edge_capacity W H) ∧
      (∀ x y, x < W → y < H → (x = W - 1 ∨ y = H - 1 ∨ y = 0) →
        (pixel_edges sqrt r g b W H x y).length < 4) := by
  have h4 : ∀ x y, (pixel_edges sqrt r g b W H x y).length ≤ 4 := by
    intro x y
    rw [pixel_edges_length]
    split_ifs <;> omega
  have hlen : (build_graph sqrt r g b W H).length ≤ 4 * W * H := by
    unfold build_graph
    have hrow : ∀ y ∈ List.range H,
        ((List.range W).flatMap fun x => pixel_edges sqrt r g b W H x y).length ≤ 4 * W := by
      intro y _
      have := length_flatMap_le (fun x => pixel_edges sqrt r g b W H x y) 4 (List.range W)
        (fun x _ => h4 x y)
      rw [List.length_range] at this
      exact this
    have := length_flatMap_le
      (fun y => (List.range W).flatMap fun x => pixel_edges sqrt r g b W H x y) (4 * W)
      (List.range H) hrow
    rw [List.length_range] at this
    exact this
  refine ⟨h4, hlen, edge_capacity_eq W H hcap, ?_, ?_⟩
  · intro i e hi
    obtain ⟨hlt, _⟩ := List.getElem?_eq_some_iff.mp hi
    rw [edge_capacity_eq W H hcap]
    have : W * H * 4 = 4 * W * H := by ring
    omega
  · intro x y hx hy hb
    rw [pixel_edges_length]
    split_ifs <;> omega

theorem build_graph_buffer_bound_witness :
    (3 * 2 * 4 < 2147483648) ∧
      edge_capacity 3 2 = ((3 * 2 * 4 : Nat) : Int) ∧
      (build_graph sample_sqrt (channel rgb.r (red_image 3 2 [0, 0, 0, 3, 1, 3]))
        (channel rgb.g (red_image 3 2 [0, 0, 0, 3, 1, 3]))
        (channel rgb.b (red_image 3 2 [0, 0, 0, 3, 1, 3])) 3 2).length ≤ 4 * 3 * 2 :=
  ⟨by decide,
    (build_graph_buffer_bound sample_sqrt (channel rgb.r (red_image 3 2 [0, 0, 0, 3, 1, 3]))
      (channel rgb.g (red_image 3 2 [0, 0, 0, 3, 1, 3]))
      (channel rgb.b (red_image 3 2 [0, 0, 0, 3, 1, 3])) 3 2 (by decide)).2.2.1,
    (build_graph_buffer_bound sample_sqrt (channel rgb.r (red_image 3 2 [0, 0, 0, 3, 1, 3]))
      (channel rgb.g (red_image 3 2 [0, 0, 0, 3, 1, 3]))
      (channel rgb.b (red_image 3 2 [0, 0, 0, 3, 1, 3])) 3 2 (by decide)).2.1⟩

/-- C15 as stated fails for a 32768x32768 image: `width*height*4` is `2^32`,
which an `int` wraps to 0, so the capacity is 0 while index 0 of `edges` is
written. -/
theorem edge_capacity_overflow :
    edge_capacity 32768 32768 = 0 ∧
      ∃ e, (build_graph sample_sqrt (channel rgb.r (flat_image 32768 32768 ⟨0, 0, 0⟩))
        (channel rgb.g (flat_image 32768 32768 ⟨0, 0, 0⟩))
        (channel rgb.b (flat_image 32768 32768 ⟨0, 0, 0⟩)) 32768 32768)[0]? = some e :=
  ⟨by decide, build_graph_first_write _ _ _ _ 32768 32768 (by decide) (by decide)⟩

/-- C16 (OpenCV wrapper output): `segment` returns the `num_ccs` computed by
`segment_image` and fills a `rows x cols` output whose value at `(y, x)` is
the label of `segment_image` at `(x, y)` minus 1; the output values are
exactly `0, ..., num_ccs - 1`, and two pixels have equal output values if and
only if they are in the same final component. -/
theorem segment_output (sqrt : ℚ → ℚ) (smooth : image ℚ → ℚ → image ℚ)
    (input : Mat Vec3b) (sigma c : ℚ) (min_size : Int) :
    (segment sqrt smooth input sigma c min_size).2 =
        (segment_image sqrt smooth (input_rgb input) sigma c min_size).2 ∧
      (segment sqrt smooth input sigma c min_size).1.rows = input.rows ∧
      (segment sqrt smooth input sigma c min_size).1.cols = input.cols ∧
      (segment sqrt smooth input sigma c min_size).1.data.length = input.rows * input.cols ∧
      (∀ y x, y < input.rows → x < input.cols →
        (segment sqrt smooth input sigma c min_size).1.at_ 0 y x =
          (segment_image sqrt smooth (input_rgb input) sigma c min_size).1.getD
            (y * input.cols + x) 0 - 1) ∧
      (∀ k : Int, k ∈ (segment sqrt smooth input sigma c min_size).1.data ↔
        0 ≤ k ∧ k ≤ (segment sqrt smooth input sigma c min_size).2 - 1) ∧
      (∀ y x y' x', y < input.rows → x < input.cols → y' < input.rows → x' < input.cols →
        ((segment sqrt smooth input sigma c min_size).1.at_ 0 y x =
            (segment sqrt smooth input sigma c min_size).1.at_ 0 y' x' ↔
          (final_universe sqrt smooth (input_rgb input) sigma c min_size).find
              (y * input.cols + x) =
            (final_universe sqrt smooth (input_rgb input) sigma c min_size).find
              (y' * input.cols + x'))) := by
  obtain ⟨hlen, hdata⟩ := segment_data_spec sqrt smooth input sigma c min_size
  obtain ⟨st, hst, heq⟩ := segment_image_linv sqrt smooth (input_rgb input) sigma c min_size
  have hf := (final_universe_inv sqrt smooth (input_rgb input) sigma c min_size).wf.forest
  have hN : (input_rgb input).width * (input_rgb input).height = input.cols * input.rows := rfl
  refine ⟨rfl, rfl, rfl, by rw [hlen, Nat.mul_comm], ?_, ?_, ?_⟩
  · intro y x hy hx
    exact segment_at_eq sqrt smooth input sigma c min_size y x hy hx
  · intro k
    show _ ↔ 0 ≤ k ∧ k ≤ (final_universe sqrt smooth (input_rgb input) sigma c min_size).num - 1
    rw [mem_iff_getD, hlen]
    constructor
    · rintro ⟨i, hi, rfl⟩
      rw [hdata i hi]
      have := label_bounds sqrt smooth (input_rgb input) sigma c min_size i hi
      omega
    · rintro ⟨h1, h2⟩
      have hmem : k + 1 ∈ st.output := (hst.mem_output hf (k + 1)).mpr ⟨by omega, by omega⟩
      obtain ⟨i, hi, hik⟩ := (mem_iff_getD _ _).mp hmem
      rw [hst.len_output, hN] at hi
      refine ⟨i, hi, ?_⟩
      rw [hdata i hi, heq]
      show st.output.getD i 0 - 1 = k
      omega
  · intro y x y' x' hy hx hy' hx'
    rw [segment_at_eq sqrt smooth input sigma c min_size y x hy hx,
      segment_at_eq sqrt smooth input sigma c min_size y' x' hy' hx', heq]
    have := hst.label_eq_iff (fun i hi => hf.find_lt i hi) (y * input.cols + x)
      (y' * input.cols + x') (idx_lt hx hy) (idx_lt hx' hy')
    rw [← this]
    show st.output.getD _ 0 - 1 = st.output.getD _ 0 - 1 ↔ _
    constructor
    · intro h; omega
    · intro h; rw [h]

/-- C20 (component count bounds and lookup safety): for an image with at
least one pixel `1 <= num_ccs <= W * H`; every root `find` returns during
labelling is below `W * H`, the size of the table `colors`; every value
`segment` writes lies in `[0, rows * cols)`; and every lookup `draw_segment`
makes into its table of `rows * cols` colours, on the output of `segment`,
is in bounds. -/
theorem component_count_bounds (sqrt : ℚ → ℚ) (smooth : image ℚ → ℚ → image ℚ)
    (im : image rgb) (input : Mat Vec3b) (sigma c : ℚ) (min_size : Int) (rnd : Nat → rgb)
    (hW : 1 ≤ im.width) (hH : 1 ≤ im.height) :
    (1 ≤ (segment_image sqrt smooth im sigma c min_size).2 ∧
      (segment_image sqrt smooth im sigma c min_size).2 ≤
        ((im.width * im.height : Nat) : Int)) ∧
    (∀ i, i < im.width * im.height →
      (final_universe sqrt smooth im sigma c min_size).find i < im.width * im.height) ∧
    (∀ y x, y < input.rows → x < input.cols →
      0 ≤ (segment sqrt smooth input sigma c min_size).1.at_ 0 y x ∧
        (segment sqrt smooth input sigma c min_size).1.at_ 0 y x <
          ((input.rows * input.cols : Nat) : Int)) ∧
    (∀ v ∈ draw_segment rnd (segment sqrt smooth input sigma c min_size).1, v ≠ none) := by
  have hb := final_num_bounds sqrt smooth im sigma c min_size
  have hseg : ∀ y x, y < input.rows → x < input.cols →
      0 ≤ (segment sqrt smooth input sigma c min_size).1.at_ 0 y x ∧
        (segment sqrt smooth input sigma c min_size).1.at_ 0 y x <
          ((input.rows * input.cols : Nat) : Int) := by
    intro y x hy hx
    rw [segment_at_eq sqrt smooth input sigma c min_size y x hy hx]
    have h1 := label_bounds sqrt smooth (input_rgb input) sigma c min_size
      (y * input.cols + x) (idx_lt hx hy)
    have h2 := (final_num_bounds sqrt smooth (input_rgb input) sigma c min_size).2
    have hN : (input_rgb input).width * (input_rgb input).height =
        input.cols * input.rows := rfl
    rw [hN] at h2
    rw [Nat.mul_comm input.rows input.cols]
    omega
  refine ⟨⟨hb.1 (Nat.mul_pos hW hH), hb.2⟩, ?_, hseg, ?_⟩
  · intro i hi
    exact (final_universe_inv sqrt smooth im sigma c min_size).wf.forest.find_lt i hi
  · intro v hv
    unfold draw_segment at hv
    simp only [List.mem_flatMap, List.mem_map, List.mem_range] at hv
    obtain ⟨y, hy, x, hx, rfl⟩ := hv
    have hy' : y < input.rows := hy
    have hx' : x < input.cols := hx
    obtain ⟨h0, h1⟩ := hseg y x hy' hx'
    have hlt : ((segment sqrt smooth input sigma c min_size).1.at_ 0 y x).toNat <
        ((List.range ((segment sqrt smooth input sigma c min_size).1.cols *
          (segment sqrt smooth input sigma c min_size).1.rows)).map rnd).length := by
      rw [List.length_map, List.length_range]
      show _ < input.cols * input.rows
      rw [Nat.mul_comm input.cols input.rows]
      omega
    unfold lookup_color
    rw [if_pos h0, List.getElem?_eq_getElem hlt]
    simp

theorem component_count_bounds_witness :
    (1 ≤ (red_image 3 2 [0, 0, 0, 3, 1, 3]).width ∧
      1 ≤ (red_image 3 2 [0, 0, 0, 3, 1, 3]).height) ∧
    (1 ≤ (segment_image sample_sqrt no_smooth (red_image 3 2 [0, 0, 0, 3, 1, 3]) 0 3 1).2 ∧
      (segment_image sample_sqrt no_smooth (red_image 3 2 [0, 0, 0, 3, 1, 3]) 0 3 1).2 ≤
        (((red_image 3 2 [0, 0, 0, 3, 1, 3]).width *
          (red_image 3 2 [0, 0, 0, 3, 1, 3]).height : Nat) : Int)) :=
  ⟨⟨by decide, by decide⟩,
    (component_count_bounds sample_sqrt no_smooth (red_image 3 2 [0, 0, 0, 3, 1, 3])
      ⟨1, 2, [⟨0, 0, 0⟩, ⟨0, 0, 9⟩]⟩ 0 3 1 (fun i => ⟨i, i, i⟩) (by decide) (by decide)).1⟩

/-- C11 (invalid dimensions), as the code has it: neither `segment_image` nor
`segment` checks the dimensions; a call with `W = 0` or `H = 0` returns an
empty label buffer, respectively an empty output matrix, and `num_ccs = 0`. -/
theorem zero_dimensions_accepted (sqrt : ℚ → ℚ) (smooth : image ℚ → ℚ → image ℚ)
    (im : image rgb) (input : Mat Vec3b) (sigma c : ℚ) (min_size : Int)
    (him : im.width = 0 ∨ im.height = 0) (hin : input.cols = 0 ∨ input.rows = 0) :
    segment_image sqrt smooth im sigma c min_size = ([], 0) ∧
      (segment sqrt smooth input sigma c min_size).1.data = [] ∧
      (segment sqrt smooth input sigma c min_size).2 = 0 := by
  have h1 : im.width * im.height = 0 := by
    rcases him with h | h <;> rw [h] <;> simp
  have h2 : input.cols * input.rows = 0 := by
    rcases hin with h | h <;> rw [h] <;> simp
  have h3 : (input_rgb input).width * (input_rgb input).height = 0 := h2
  refine ⟨segment_image_empty sqrt smooth im sigma c min_size h1, ?_, ?_⟩
  · have := (segment_data_spec sqrt smooth input sigma c min_size).1
    rw [h2] at this
    exact List.length_eq_zero.mp this
  · show (segment_image sqrt smooth (input_rgb input) sigma c min_size).2 = 0
    rw [segment_image_empty sqrt smooth (input_rgb input) sigma c min_size h3]

theorem zero_dimensions_accepted_witness :
    ((flat_image 0 3 ⟨1, 2, 3⟩).width = 0 ∨ (flat_image 0 3 ⟨1, 2, 3⟩).height = 0) ∧
      segment_image sample_sqrt no_smooth (flat_image 0 3 ⟨1, 2, 3⟩) 1 500 20 = ([], 0) :=
  ⟨Or.inl rfl,
    (zero_dimensions_accepted sample_sqrt no_smooth (flat_image 0 3 ⟨1, 2, 3⟩) ⟨0, 3, []⟩
      1 500 20 (Or.inl rfl) (Or.inr rfl)).1⟩

/-- C11 as stated fails: the call of `segment_image` on an image of width 0
and the call of `segment` on a matrix with 0 rows return an empty output and
`num_ccs = 0`. -/
theorem zero_dimensions_not_rejected :
    segment_image sample_sqrt no_smooth (flat_image 0 3 ⟨1, 2, 3⟩) 0 1 1 = ([], 0) ∧
      (segment sample_sqrt no_smooth ⟨0, 3, []⟩ 0 1 1).1.data = [] ∧
      (segment sample_sqrt no_smooth ⟨0, 3, []⟩ 0 1 1).2 = 0 := by
  decide!

/-- C12 (invalid parameters), as the code has it: `segment_image` checks
neither `min_size` nor `c`. A call with a negative `min_size` returns what
the call with `min_size = 1` returns; with a negative `c` and a `sqrt` that
is never negative `segment_graph` merges nothing, and then with
`min_size <= 1` every pixel is a component of its own,
`num_ccs = W * H`. -/
theorem negative_parameters_accepted (sqrt : ℚ → ℚ) (smooth : image ℚ → ℚ → image ℚ)
    (im : image rgb) (sigma c : ℚ) (min_size : Int) :
    (min_size < 0 →
      segment_image sqrt smooth im sigma c min_size = segment_image sqrt smooth im sigma c 1) ∧
    (c < 0 → (∀ q, 0 ≤ sqrt q) →
      graph_universe sqrt smooth im sigma c = Universe.create (im.width * im.height) ∧
        (min_size ≤ 1 →
          (segment_image sqrt smooth im sigma c min_size).2 =
            ((im.width * im.height : Nat) : Int))) := by
  constructor
  · intro hms
    have h1 := final_universe_of_min_size_le_one sqrt smooth im sigma c min_size (by omega)
    have h2 := final_universe_of_min_size_le_one sqrt smooth im sigma c 1 (le_refl _)
    unfold segment_image
    rw [h1, h2]
  · intro hc hsqrt
    have hg := graph_universe_negative_c sqrt smooth im sigma c hc hsqrt
    refine ⟨hg, ?_⟩
    intro hms
    show (final_universe sqrt smooth im sigma c min_size).num = _
    rw [final_universe_of_min_size_le_one sqrt smooth im sigma c min_size hms, hg]
    rfl

/-- C12 as stated fails: the call with `c = -1` and `min_size = -3` on a 2x1
image returns a segmentation. -/
theorem negative_parameters_not_rejected :
    ((-1 : ℚ) < 0 ∧ (-3 : Int) < 0) ∧
      segment_image sample_sqrt no_smooth (red_image 2 1 [0, 5]) 0 (-1) (-3) = ([1, 2], 2) := by
  decide!

end Segment
